import Mathlib

/-
Shallow embedding of the vectoria vector-similarity engine.

Sources embedded:
  internal/semantic/semantic.go  (vector math and the re-ranker Search)
  internal/simhash/simhash.go    (random-hyperplane sketches)
  internal/lsh/lsh.go            (LSH index: New, Add, Get, config persistence)
  internal/lsh key helpers       (key layout index/{I}/...)
  vectoria.go                    (DB facade: addLSH, Add, Get)

Modelling conventions:
  * float64 arithmetic is modelled by exact real arithmetic over ℝ.
    IEEE rounding, NaN and infinities are outside the model; every claim
    settled here concerns control flow (comparisons, filtering, ordering)
    that is insensitive to rounding.  The byte-level encoding functions
    (encodeFloat64Slice and friends) are modelled separately over raw
    64-bit patterns (Nat below 2^64), where bitwise identity is exact.
  * Go's `uint32(n)` conversions are modelled as `n % U32`.
  * Fallible Go functions returning (T, error) become `Except Err T`.
  * The badger-backed Storage is modelled as an association list from
    string keys to abstract values; the serialized byte values of the
    store appear at the model level as the decoded data they encode
    (the byte round-trip itself is verified separately).
  * Go map iteration order is unspecified; maps that are iterated are
    modelled as association lists and the claims proved do not depend on
    a particular order.
-/

namespace Vectoria

/-- `2^32`, the modulus of Go's `uint32` conversions. -/
def U32 : Nat := 2 ^ 32

/-- lsh.go: MIN_NUM_ROUNDS. -/
def MIN_NUM_ROUNDS : Nat := 1

/-- lsh.go: MIN_NUM_HYPERPLANES. -/
def MIN_NUM_HYPERPLANES : Nat := 1

/-- lsh.go: MIN_SPACE_DIM. -/
def MIN_SPACE_DIM : Nat := 2

/-- Error kinds of the engine (the Go code uses one struct type per kind;
only the kind and the payload that identifies it are modelled). -/
inductive Err where
  | vectorsNotSameLen : Err
  | emptyVector : Err
  | numHyperPlanesZero : Err
  | spaceDimZero : Err
  | invalidIDLen (idLen : Nat) : Err
  | embeddingLen (expected got : Nat) : Err
  | invalidThreshold : Err
  | invalidNumSketches (expected got : Nat) : Err
  | invalidSketchLen (expected got : Nat) : Err
  | indexAlreadyExists (name : String) : Err
  | indexDoesNotExist (name : String) : Err
  | dbHasNoIndex : Err
  | notFound (key : String) : Err
  | decodeError : Err
  deriving DecidableEq, Repr

noncomputable section

/-- semantic.go: EPSILON = 1e-10. -/
def EPSILON : ℝ := 1 / 10 ^ 10

/-- semantic.go dotProduct: errors when lengths differ, otherwise the
left-to-right sum of products. -/
def dotProduct (vecA vecB : List ℝ) : Except Err ℝ :=
  if vecA.length ≠ vecB.length then .error .vectorsNotSameLen
  else .ok (((vecA.zip vecB).map fun p => p.1 * p.2).sum)

/-- semantic.go euclideanNorm: errors on an empty vector, otherwise
`√(dot v v)`. -/
def euclideanNorm (vec : List ℝ) : Except Err ℝ :=
  if vec.length = 0 then .error .emptyVector
  else
    match dotProduct vec vec with
    | .error e => .error e
    | .ok d => .ok (Real.sqrt d)

/-- semantic.go cosineSim: masks tiny norms to −1, otherwise
`dot(a,b) / (normA · normB)`. -/
def cosineSim (vecA vecB : List ℝ) (normA normB : ℝ) : Except Err ℝ :=
  if normA ≤ EPSILON ∨ normB ≤ EPSILON then .ok (-1)
  else
    match dotProduct vecA vecB with
    | .error e => .error e
    | .ok dp => .ok (dp / (normA * normB))

/-- The candidate loop of semantic.go Search: computes each candidate's
norm and cosine similarity, keeps the pairs with `sim ≥ threshold`
(in candidate order), and propagates the first error. -/
def collectSims (queryVec : List ℝ) (queryVecNorm threshold : ℝ) :
    List (String × List ℝ) → Except Err (List (String × ℝ))
  | [] => .ok []
  | (id, candidate) :: rest =>
    match euclideanNorm candidate with
    | .error e => .error e
    | .ok candidateNorm =>
      match cosineSim queryVec candidate queryVecNorm candidateNorm with
      | .error e => .error e
      | .ok sim =>
        match collectSims queryVec queryVecNorm threshold rest with
        | .error e => .error e
        | .ok tail => .ok (if threshold ≤ sim then (id, sim) :: tail else tail)

/-- The comparator of semantic.go Search's sort.Slice call, which sorts
ids descending by similarity (`simMap[ids[i]] > simMap[ids[j]]`);
keeping each id paired with its similarity replaces the simMap lookup. -/
def simLE (p q : String × ℝ) : Bool := decide (q.2 ≤ p.2)

/-- semantic.go Search: filter candidates by cosine-similarity threshold,
sort descending by similarity, and truncate to `k` results unless
`k = 0` or `k` exceeds the result count.  Go's sort.Slice promises some
permutation ordered by the comparator; mergeSort realises that promise. -/
def Search (queryVec : List ℝ) (candidates : List (String × List ℝ))
    (threshold : ℝ) (k : Nat) : Except Err (List String) :=
  match euclideanNorm queryVec with
  | .error e => .error e
  | .ok queryVecNorm =>
    match collectSims queryVec queryVecNorm threshold candidates with
    | .error e => .error e
    | .ok pairs =>
      let ids := (pairs.mergeSort simLE).map Prod.fst
      if k = 0 ∨ ids.length % U32 < k then .ok ids else .ok (ids.take k)

/-- simhash.go SimHash: an ordered list of hyperplanes. -/
structure SimHash where
  Hyperplanes : List (List ℝ)

/-- simhash.go hash: "1" when the projection is ≥ 0, else "0". -/
def hash (projectionVector embedding : List ℝ) : Except Err String :=
  match dotProduct projectionVector embedding with
  | .error e => .error e
  | .ok res => .ok (if 0 ≤ res then "1" else "0")

/-- The per-hyperplane loop of simhash.go Sketch. -/
def sketchChars (embedding : List ℝ) : List (List ℝ) → Except Err (List String)
  | [] => .ok []
  | h :: t =>
    match hash h embedding with
    | .error e => .error e
    | .ok s =>
      match sketchChars embedding t with
      | .error e => .error e
      | .ok rest => .ok (s :: rest)

/-- simhash.go Sketch: one character per hyperplane, joined. -/
def Sketch (sh : SimHash) (embedding : List ℝ) : Except Err String :=
  match sketchChars embedding sh.Hyperplanes with
  | .error e => .error e
  | .ok sk => .ok (String.join sk)

end

/-! ### Key layout (lsh key helpers)

The Go helper `key(elems...)` joins its arguments with `/`; each key
function below is that join written out. -/

/-- Key `index/{I}`. -/
def getIndexKey (indexName : String) : String := "index" ++ "/" ++ indexName

/-- Key `index/{I}/embedding/{id}`. -/
def getEmbeddingKey (indexName id : String) : String :=
  getIndexKey indexName ++ "/" ++ "embedding" ++ "/" ++ id

/-- Key `index/{I}/sketch/{s}`, the prefix scanned for a bucket. -/
def getSketchPrefKey (indexName sketch : String) : String :=
  getIndexKey indexName ++ "/" ++ "sketch" ++ "/" ++ sketch

/-- Key `index/{I}/sketch/{s}/{id}`, one bucket-membership entry. -/
def getSketchKey (indexName sketch id : String) : String :=
  getSketchPrefKey indexName sketch ++ "/" ++ id

/-- Key `index/{I}/num_rounds`. -/
def getNumRoundsKey (indexName : String) : String :=
  getIndexKey indexName ++ "/" ++ "num_rounds"

/-- Key `index/{I}/num_hyperplanes`. -/
def getNumHyperPlanesKey (indexName : String) : String :=
  getIndexKey indexName ++ "/" ++ "num_hyperplanes"

/-- Key `index/{I}/space_dim`. -/
def getSpaceDimKey (indexName : String) : String :=
  getIndexKey indexName ++ "/" ++ "space_dim"

/-- Key `index/{I}/hash/{r}/hyperplanes`. -/
def getHyperPlanesKey (indexName : String) (hashIdx : Nat) : String :=
  getIndexKey indexName ++ "/" ++ "hash" ++ "/" ++ toString hashIdx ++ "/" ++ "hyperplanes"

/-! ### Byte-level binary encoding (lsh.go encode/decode helpers)

A float64 is its 64-bit IEEE-754 pattern, a `Nat` below `2^64`; bytes are
`Nat`s below `256`.  `binary.Write`/`binary.Read` with `binary.LittleEndian`
move 8 bytes per value, least-significant first.  Bitwise equality of
float64 values is equality of patterns. -/

/-- The 8 little-endian bytes of a 64-bit pattern. -/
def toLEBytes8 (w : Nat) : List Nat := (List.range 8).map fun i => w / 256 ^ i % 256

/-- Reassemble a 64-bit pattern from little-endian bytes. -/
def fromLEBytes8 (bs : List Nat) : Nat := bs.foldr (fun b acc => acc * 256 + b) 0

/-- lsh.go encodeFloat64Slice: each value appended as 8 LE bytes.
(The buffer write cannot fail, so the Go error path is dead.) -/
def encodeFloat64Slice (slice : List Nat) : List Nat := (slice.map toLEBytes8).flatten

/-- lsh.go decodeFloat64Slice: read 8-byte values until the buffer is
empty; a trailing fragment of fewer than 8 bytes makes `binary.Read`
fail. -/
def decodeFloat64Slice : List Nat → Except Err (List Nat)
  | [] => .ok []
  | b :: bs =>
    if (b :: bs).length < 8 then .error .decodeError
    else
      match decodeFloat64Slice ((b :: bs).drop 8) with
      | .error e => .error e
      | .ok rest => .ok (fromLEBytes8 ((b :: bs).take 8) :: rest)
termination_by data => data.length
decreasing_by simp; omega

/-- lsh.go encodeFloat64Slice2D: all rows appended row-major. -/
def encodeFloat64Slice2D (slice : List (List Nat)) : List Nat :=
  (slice.map encodeFloat64Slice).flatten

/-- lsh.go decodeFloat64Slice2D: read rows of `numCols` values until the
buffer is empty.  With `numCols = 0` and a non-empty buffer the Go loop
never consumes input and does not terminate; the model returns an error
there (no claim depends on that branch terminating). -/
def decodeFloat64Slice2D : List Nat → Nat → Except Err (List (List Nat))
  | [], _ => .ok []
  | b :: bs, numCols =>
    if numCols = 0 then .error .decodeError
    else if (b :: bs).length < 8 * numCols then .error .decodeError
    else
      match decodeFloat64Slice2D ((b :: bs).drop (8 * numCols)) numCols with
      | .error e => .error e
      | .ok rest =>
        match decodeFloat64Slice ((b :: bs).take (8 * numCols)) with
        | .error e => .error e
        | .ok row => .ok (row :: rest)
termination_by data _ => data.length
decreasing_by simp; omega

/-- lsh.go setHyperParams: clamp parameters below their minimum.  The
source guards `spaceDim` with `MIN_NUM_HYPERPLANES` (lsh.go line 495),
not with `MIN_SPACE_DIM`, which the claims are measured against. -/
def setHyperParams (numRounds numHyperplanes spaceDim : Nat) : Nat × Nat × Nat :=
  let r := if numRounds < MIN_NUM_ROUNDS then MIN_NUM_ROUNDS else numRounds
  let h := if numHyperplanes < MIN_NUM_HYPERPLANES then MIN_NUM_HYPERPLANES else numHyperplanes
  let d := if spaceDim < MIN_NUM_HYPERPLANES then MIN_SPACE_DIM else spaceDim
  (r, h, d)

noncomputable section

/-! ### KV store (internal/storage, abstracted)

The badger store maps string keys to byte strings.  At the model level a
value is the data its bytes encode: a `vstr` for UTF-8 ids, `vreals` for
float64 sequences (embeddings and flattened hyperplane matrices), `vnat`
for `u32` little-endian config numbers, `vempty` for the empty value.
The byte round-trips behind this abstraction are verified separately on
the byte-level encoders above.  The store is an association list; `Add`
is an atomic batched upsert; prefix scans compare byte prefixes, which
for valid UTF-8 keys coincide with character prefixes. -/

/-- A decoded KV value. -/
inductive Val where
  | vstr (s : String) : Val
  | vreals (xs : List ℝ) : Val
  | vnat (n : Nat) : Val
  | vempty : Val

/-- The KV store: keys with their current values, oldest first. -/
abbrev KV := List (String × Val)

/-- storage.go KeyExists. -/
def kvKeyExists (kv : KV) (key : String) : Bool := kv.any (fun p => p.1 == key)

/-- Insert or overwrite one key (badger's `Set`): replace the entry of
the key when present, else append. -/
def kvUpsert : KV → String → Val → KV
  | [], key, v => [(key, v)]
  | p :: rest, key, v =>
    if p.1 == key then (key, v) :: rest else p :: kvUpsert rest key v

/-- storage.go Add: one transaction writing every entry of the batch. -/
def kvAddBatch (kv : KV) (data : List (String × Val)) : KV :=
  data.foldl (fun acc p => kvUpsert acc p.1 p.2) kv

/-- storage.go Get: the value under a key, or a not-found error. -/
def kvGet : KV → String → Except Err Val
  | [], key => .error (.notFound key)
  | p :: rest, key => if p.1 == key then .ok p.2 else kvGet rest key

/-- storage.go GetWithPrefix: the values of every key extending the
prefix. -/
def kvPrefixScan (kv : KV) (pre : String) : List Val :=
  (kv.filter (fun p => pre.data.isPrefixOf p.1.data)).map Prod.snd

/-! ### LSH index (internal/lsh/lsh.go) -/

/-- lsh.go LSH: name, per-round SimHash instances, hyperparameters. -/
structure LSH where
  indexName : String
  hashes : List SimHash
  numRounds : Nat
  numHyperPlanes : Nat
  spaceDim : Nat

/-- simhash.go generateHyperplanes: `numHyperPlanes × spaceDim`
independent draws; `supply i j` stands for the value the process-global
normal generator returns for cell `(i, j)`. -/
def generateHyperplanes (numHyperPlanes spaceDim : Nat) (supply : Nat → Nat → ℝ) :
    Except Err (List (List ℝ)) :=
  if numHyperPlanes = 0 then .error .numHyperPlanesZero
  else if spaceDim = 0 then .error .spaceDimZero
  else .ok ((List.range numHyperPlanes).map fun i => (List.range spaceDim).map fun j => supply i j)

/-- The round loop of lsh.go New: one simhash.New per round, round `i`
drawing from `supply i`. -/
def mkHashes (numHyperPlanes spaceDim : Nat) (supply : Nat → Nat → Nat → ℝ) :
    Nat → Nat → Except Err (List SimHash)
  | 0, _ => .ok []
  | n + 1, i =>
    match generateHyperplanes numHyperPlanes spaceDim (supply i) with
    | .error e => .error e
    | .ok planes =>
      match mkHashes numHyperPlanes spaceDim supply n (i + 1) with
      | .error e => .error e
      | .ok rest => .ok (⟨planes⟩ :: rest)

/-- The per-round config entries written by lsh.go storeConfig:
`index/{I}/hash/{i}/hyperplanes` holds round i's matrix, row-major. -/
def hashEntries (indexName : String) : Nat → List SimHash → List (String × Val)
  | _, [] => []
  | i, h :: t =>
    (getHyperPlanesKey indexName i, .vreals h.Hyperplanes.flatten) :: hashEntries indexName (i + 1) t

/-- lsh.go storeConfig: marker, hyperparameters and all hyperplane
matrices in one KV transaction. -/
def storeConfig (l : LSH) (kv : KV) : KV :=
  kvAddBatch kv
    ([(getIndexKey l.indexName, .vempty),
      (getNumRoundsKey l.indexName, .vnat l.numRounds),
      (getNumHyperPlanesKey l.indexName, .vnat l.numHyperPlanes),
      (getSpaceDimKey l.indexName, .vnat l.spaceDim)]
      ++ hashEntries l.indexName 0 l.hashes)

/-- Reading a stored `u32`; the Go code calls
`binary.LittleEndian.Uint32` on the raw bytes, which for a value written
by `encodeUInt32` recovers the stored number. -/
def decodeU32Val : Val → Except Err Nat
  | .vnat n => .ok n
  | _ => .error .decodeError

/-- Value-level mirror of decodeFloat64Slice2D used when loading stored
hyperplane matrices: chunk a flat row-major sequence into rows of
`numCols`.  As in the byte version, `numCols = 0` with a non-empty
sequence is the non-terminating Go branch, modelled as an error. -/
def decodeRealSlice2D : List ℝ → Nat → Except Err (List (List ℝ))
  | [], _ => .ok []
  | x :: xs, numCols =>
    if numCols = 0 then .error .decodeError
    else if (x :: xs).length < numCols then .error .decodeError
    else
      match decodeRealSlice2D ((x :: xs).drop numCols) numCols with
      | .error e => .error e
      | .ok rest => .ok ((x :: xs).take numCols :: rest)
termination_by data _ => data.length
decreasing_by simp; omega

/-- The round loop of lsh.go getStoredConfig: load and decode each
round's hyperplane matrix. -/
def getStoredHashes (indexName : String) (kv : KV) (spaceDim : Nat) :
    Nat → Nat → Except Err (List SimHash)
  | _, 0 => .ok []
  | i, n + 1 =>
    match kvGet kv (getHyperPlanesKey indexName i) with
    | .error e => .error e
    | .ok (.vreals flat) =>
      match decodeRealSlice2D flat spaceDim with
      | .error e => .error e
      | .ok m =>
        match getStoredHashes indexName kv spaceDim (i + 1) n with
        | .error e => .error e
        | .ok rest => .ok (⟨m⟩ :: rest)
    | .ok _ => .error .decodeError

/-- lsh.go getStoredConfig: read `num_rounds`, `num_hyperplanes`,
`space_dim` (in that order), then every round's matrix. -/
def getStoredConfig (indexName : String) (kv : KV) : Except Err LSH :=
  match kvGet kv (getNumRoundsKey indexName) with
  | .error e => .error e
  | .ok encodedNumRounds =>
    match kvGet kv (getNumHyperPlanesKey indexName) with
    | .error e => .error e
    | .ok encodedNumHyperPlanes =>
      match kvGet kv (getSpaceDimKey indexName) with
      | .error e => .error e
      | .ok encodedSpaceDim =>
        match decodeU32Val encodedNumRounds, decodeU32Val encodedNumHyperPlanes,
            decodeU32Val encodedSpaceDim with
        | .ok numRounds, .ok numHyperPlanes, .ok spaceDim =>
          match getStoredHashes indexName kv spaceDim 0 numRounds with
          | .error e => .error e
          | .ok hashes => .ok ⟨indexName, hashes, numRounds, numHyperPlanes, spaceDim⟩
        | _, _, _ => .error .decodeError

/-- lsh.go New: when `index/{name}` already exists the stored config is
loaded and the arguments are ignored (persistence wins); otherwise the
clamped parameters are set, fresh hyperplanes drawn, and the config
persisted. -/
def lshNew (indexName : String) (kv : KV) (numRounds numHyperPlanes spaceDim : Nat)
    (supply : Nat → Nat → Nat → ℝ) : Except Err (LSH × KV) :=
  if kvKeyExists kv (getIndexKey indexName) then
    match getStoredConfig indexName kv with
    | .error e => .error e
    | .ok l => .ok (l, kv)
  else
    match setHyperParams numRounds numHyperPlanes spaceDim with
    | (r, h, d) =>
      match mkHashes h d supply r 0 with
      | .error e => .error e
      | .ok hashes =>
        let l : LSH := ⟨indexName, hashes, r, h, d⟩
        .ok (l, storeConfig l kv)

/-- lsh.go checkEmbedding: the embedding length (as u32) must equal
`spaceDim`. -/
def checkEmbedding (l : LSH) (embedding : List ℝ) : Except Err Unit :=
  if l.spaceDim ≠ embedding.length % U32 then
    .error (.embeddingLen l.spaceDim (embedding.length % U32))
  else .ok ()

/-- lsh.go prepareEmbedding: validate, then one entry holding the
encoded vector under `index/{I}/embedding/{id}`. -/
def prepareEmbedding (l : LSH) (id : String) (embedding : List ℝ) :
    Except Err (List (String × Val)) :=
  match checkEmbedding l embedding with
  | .error e => .error e
  | .ok _ => .ok [(getEmbeddingKey l.indexName id, .vreals embedding)]

/-- The round loop of lsh.go getSketches. -/
def getSketchesAux (embedding : List ℝ) : List SimHash → Except Err (List String)
  | [] => .ok []
  | h :: t =>
    match Sketch h embedding with
    | .error e => .error e
    | .ok sk =>
      match getSketchesAux embedding t with
      | .error e => .error e
      | .ok rest => .ok (sk :: rest)

/-- lsh.go getSketches: one sketch per round. -/
def getSketches (l : LSH) (embedding : List ℝ) : Except Err (List String) :=
  getSketchesAux embedding l.hashes

/-- The per-sketch length check of lsh.go checkSketches. -/
def checkSketchLens (numHyperPlanes : Nat) : List String → Except Err Unit
  | [] => .ok ()
  | sk :: t =>
    if numHyperPlanes ≠ sk.length % U32 then
      .error (.invalidSketchLen numHyperPlanes (sk.length % U32))
    else checkSketchLens numHyperPlanes t

/-- lsh.go checkSketches: `numRounds` sketches, each of length
`numHyperPlanes`. -/
def checkSketches (l : LSH) (sks : List String) : Except Err Unit :=
  if l.numRounds ≠ sks.length % U32 then
    .error (.invalidNumSketches l.numRounds (sks.length % U32))
  else checkSketchLens l.numHyperPlanes sks

/-- lsh.go prepareSketches: non-empty id, valid sketches, then one
membership entry `index/{I}/sketch/{s}/{id} → id` per sketch (equal
sketches collapse into one map entry, as in the Go map literal). -/
def prepareSketches (l : LSH) (id : String) (sks : List String) :
    Except Err (List (String × Val)) :=
  if id.length = 0 then .error (.invalidIDLen id.length)
  else
    match checkSketches l sks with
    | .error e => .error e
    | .ok _ => .ok (sks.map fun sk => (getSketchKey l.indexName sk id, .vstr id))

/-- lsh.go Add: embedding entry plus all sketch entries committed in one
KV transaction.  `maps.Copy` writes the embedding entries first, then
the sketch entries, so later batch entries win on key collision. -/
def lshAdd (l : LSH) (kv : KV) (id : String) (embedding : List ℝ) : Except Err KV :=
  match prepareEmbedding l id embedding with
  | .error e => .error e
  | .ok embedData =>
    match getSketches l embedding with
    | .error e => .error e
    | .ok sks =>
      match prepareSketches l id sks with
      | .error e => .error e
      | .ok sksData => .ok (kvAddBatch kv (embedData ++ sksData))

/-- lsh.go checkThreshold: the threshold must lie in `[0, 1]`. -/
def checkThreshold (threshold : ℝ) : Except Err Unit :=
  if threshold < 0 ∨ 1 < threshold then .error .invalidThreshold else .ok ()

/-- lsh.go checkGetParams: query dimension, then threshold. -/
def checkGetParams (l : LSH) (queryVec : List ℝ) (threshold : ℝ) : Except Err Unit :=
  match checkEmbedding l queryVec with
  | .error e => .error e
  | .ok _ => checkThreshold threshold

/-- Go converts each raw bucket value back to a string id; only `vstr`
values occur under sketch keys in any state the index itself wrote. -/
def valToString : Val → String
  | .vstr s => s
  | _ => ""

/-- lsh.go getBucketIDs: the ids under the bucket's key prefix. -/
def getBucketIDs (l : LSH) (kv : KV) (sk : String) : List String :=
  (kvPrefixScan kv (getSketchPrefKey l.indexName sk)).map valToString

/-- lsh.go getEmbedding: fetch and decode one stored vector.  A `vempty`
value is zero bytes, which decode to the empty slice. -/
def getEmbedding (l : LSH) (kv : KV) (id : String) : Except Err (List ℝ) :=
  match kvGet kv (getEmbeddingKey l.indexName id) with
  | .error e => .error e
  | .ok (.vreals xs) => .ok xs
  | .ok .vempty => .ok []
  | .ok _ => .error .decodeError

/-- The inner loop of lsh.go getEmbeddingsFromBuckets: fetch each id not
yet present in the candidate map. -/
def addCandidates (l : LSH) (kv : KV) :
    List String → List (String × List ℝ) → Except Err (List (String × List ℝ))
  | [], data => .ok data
  | id :: rest, data =>
    if data.any (fun p => p.1 == id) then addCandidates l kv rest data
    else
      match getEmbedding l kv id with
      | .error e => .error e
      | .ok embed => addCandidates l kv rest (data ++ [(id, embed)])

/-- lsh.go getEmbeddingsFromBuckets: union the buckets of all round
sketches, fetching each candidate's embedding once. -/
def getEmbeddingsFromBuckets (l : LSH) (kv : KV) :
    List String → List (String × List ℝ) → Except Err (List (String × List ℝ))
  | [], data => .ok data
  | sk :: rest, data =>
    match addCandidates l kv (getBucketIDs l kv sk) data with
    | .error e => .error e
    | .ok data' => getEmbeddingsFromBuckets l kv rest data'

/-- lsh.go Get: validate, sketch the query, collect candidates from the
buckets, re-rank with semantic Search. -/
def lshGet (l : LSH) (kv : KV) (queryVec : List ℝ) (threshold : ℝ) (k : Nat) :
    Except Err (List String) :=
  match checkGetParams l queryVec threshold with
  | .error e => .error e
  | .ok _ =>
    match getSketches l queryVec with
    | .error e => .error e
    | .ok sks =>
      match getEmbeddingsFromBuckets l kv sks [] with
      | .error e => .error e
      | .ok candidates => Search queryVec candidates threshold k

/-! ### Database facade (vectoria.go)

The registry (`safeMap`) is a name → index map; it is modelled as an
association list whose order stands for Go's (arbitrary) map iteration
order.  The RW lock only serialises access and has no sequential
content.  A `ModelDB` carries the registry and the shared KV store;
facade operations return the final store/registry so that claims can
inspect the state left behind by a failing call. -/

/-- vectoria.go LSHConfig. -/
structure LSHConfig where
  IndexName : String
  NumRounds : Nat
  NumHyperPlanes : Nat
  SpaceDim : Nat

/-- The DB: registry of named indexes plus the shared KV store. -/
structure ModelDB where
  registry : List (String × LSH)
  kv : KV

/-- safeMap.get. -/
def regGet : List (String × LSH) → String → Option LSH
  | [], _ => none
  | p :: rest, name => if p.1 == name then some p.2 else regGet rest name

/-- safeMap.keyExists. -/
def regKeyExists (reg : List (String × LSH)) (name : String) : Bool :=
  reg.any (fun p => p.1 == name)

/-- safeMap.add (map assignment: overwrite or append). -/
def regAdd : List (String × LSH) → String → LSH → List (String × LSH)
  | [], name, l => [(name, l)]
  | p :: rest, name, l =>
    if p.1 == name then (name, l) :: rest else p :: regAdd rest name l

/-- safeMap.del. -/
def regDel (reg : List (String × LSH)) (name : String) : List (String × LSH) :=
  reg.filter (fun p => ¬ p.1 == name)

/-- DB.Indexes: the registered names. -/
def Indexes (db : ModelDB) : List String := db.registry.map Prod.fst

/-- DB.NumIndexes: `uint32(len(db.Indexes()))`. -/
def NumIndexes (db : ModelDB) : Nat := (Indexes db).length % U32

/-- vectoria.go addLSHRollback: delete each config's (original) index
name from the registry. -/
def addLSHRollback (reg : List (String × LSH)) (configs : List LSHConfig) :
    List (String × LSH) :=
  configs.foldl (fun acc c => regDel acc c.IndexName) reg

/-- The loop of vectoria.go addLSH.  `i` counts configs already handled
and `processed` holds them (`configs[:i]`); on a duplicate name the
processed configs plus the offender (`configs[:i+1]`) are rolled back by
their original names.  `uuids i` stands for the `uuid.NewString()` value
drawn for config `i`; `supply i` feeds that config's hyperplane draws.
Only the loop-local copy of the config gets the generated name, so the
rollback still sees the caller's empty `IndexName`. -/
def addLSHLoop (uuids : Nat → String) (supply : Nat → Nat → Nat → Nat → ℝ) :
    Nat → List LSHConfig → List LSHConfig → List (String × LSH) → KV →
    List (String × LSH) × KV × Option Err
  | _, _, [], reg, kv => (reg, kv, none)
  | i, processed, c :: rest, reg, kv =>
    if regKeyExists reg c.IndexName then
      (addLSHRollback reg (processed ++ [c]), kv, some (.indexAlreadyExists c.IndexName))
    else
      let name := if c.IndexName = "" then uuids i else c.IndexName
      match lshNew name kv c.NumRounds c.NumHyperPlanes c.SpaceDim (supply i) with
      | .error e => (reg, kv, some e)
      | .ok (l, kv') => addLSHLoop uuids supply (i + 1) (processed ++ [c]) rest (regAdd reg name l) kv'

/-- vectoria.go addLSH. -/
def addLSH (db : ModelDB) (configs : List LSHConfig) (uuids : Nat → String)
    (supply : Nat → Nat → Nat → Nat → ℝ) : ModelDB × Option Err :=
  match addLSHLoop uuids supply 0 [] configs db.registry db.kv with
  | (reg, kv, err) => (⟨reg, kv⟩, err)

/-- vectoria.go New: open the store (here: start from its contents),
build an empty registry, then addLSH over the configs.  On error Go
discards the DB value; the model keeps the final state so claims can
talk about the registry the failed call built. -/
def dbNew (configs : List LSHConfig) (kv : KV) (uuids : Nat → String)
    (supply : Nat → Nat → Nat → Nat → ℝ) : ModelDB × Option Err :=
  addLSH ⟨[], kv⟩ configs uuids supply

/-- The fan-out loop of vectoria.go DB.Add: look each name up, run the
index's Add, stop at the first failure (the store keeps the updates of
the indexes already handled). -/
def goAdd (reg : List (String × LSH)) (itemID : String) (itemVec : List ℝ) :
    List String → KV → KV × Option Err
  | [], kv => (kv, none)
  | n :: t, kv =>
    match regGet reg n with
    | none => (kv, some (.indexDoesNotExist n))
    | some l =>
      match lshAdd l kv itemID itemVec with
      | .error e => (kv, some e)
      | .ok kv' => goAdd reg itemID itemVec t kv'

/-- vectoria.go DB.Add: refuse an empty registry, default the name list
to every registered index, then fan out. -/
def dbAdd (db : ModelDB) (itemID : String) (itemVec : List ℝ)
    (indexNames : List String) : KV × Option Err :=
  if NumIndexes db = 0 then (db.kv, some .dbHasNoIndex)
  else
    goAdd db.registry itemID itemVec
      (if indexNames.isEmpty then Indexes db else indexNames) db.kv

/-- The fan-out loop of vectoria.go DB.Get, aggregating
`index name → ids`. -/
def goGet (reg : List (String × LSH)) (kv : KV) (queryVec : List ℝ)
    (threshold : ℝ) (k : Nat) : List String → Except Err (List (String × List String))
  | [] => .ok []
  | n :: t =>
    match regGet reg n with
    | none => .error (.indexDoesNotExist n)
    | some l =>
      match lshGet l kv queryVec threshold k with
      | .error e => .error e
      | .ok ids =>
        match goGet reg kv queryVec threshold k t with
        | .error e => .error e
        | .ok res => .ok ((n, ids) :: res)

/-- vectoria.go DB.Get: default the name list to every registered index
(no emptiness check, unlike Add), then fan out. -/
def dbGet (db : ModelDB) (queryVec : List ℝ) (threshold : ℝ) (k : Nat)
    (indexNames : List String) : Except Err (List (String × List String)) :=
  goGet db.registry db.kv queryVec threshold k
    (if indexNames.isEmpty then Indexes db else indexNames)

end

/-! ### Auxiliary definitions used by the theorems -/

noncomputable section

/-- The concrete one-round stored config used by the C7 witness. -/
noncomputable def storedKV : KV :=
  [(getIndexKey "n", .vempty),
   (getNumRoundsKey "n", .vnat 1),
   (getNumHyperPlanesKey "n", .vnat 1),
   (getSpaceDimKey "n", .vnat 2),
   (getHyperPlanesKey "n" 0, .vreals [1, 2])]

/-- A 2-round index whose two rounds happen to share the same hyperplane
matrix (nothing rules this out: hyperplanes are independent random
draws). -/
noncomputable def dupLSH : LSH := ⟨"i", [⟨[[1, 0]]⟩, ⟨[[1, 0]]⟩], 2, 1, 2⟩

/-- The store state after running the Add fan-out of vectoria.go DB.Add
over `names`, skipping steps that fail; used to state which updates a
partial run has applied. -/
def addAllKV (reg : List (String × LSH)) (itemID : String) (itemVec : List ℝ)
    (names : List String) (kv : KV) : KV :=
  names.foldl (fun acc n =>
    match regGet reg n with
    | some l =>
      match lshAdd l acc itemID itemVec with
      | .ok kv' => kv'
      | .error _ => acc
    | none => acc) kv

/-- The error one fan-out step of DB.Add produces from a given store
state: IndexDoesNotExist for an unregistered name, the index Add's
error otherwise, and none on success. -/
def stepErr (reg : List (String × LSH)) (itemID : String) (itemVec : List ℝ)
    (n : String) (kv : KV) : Option Err :=
  match regGet reg n with
  | none => some (.indexDoesNotExist n)
  | some l =>
    match lshAdd l kv itemID itemVec with
    | .error e => some e
    | .ok _ => none

/-- The key prefix `index/{I}/sketch/` under which every bucket entry of
index `I` lives. -/
def sketchRoot (indexName : String) : String := getSketchPrefKey indexName ""

/-- The key prefix `index/{I}/embedding/` of the embedding entries. -/
def embRoot (indexName : String) : String := getEmbeddingKey indexName ""

/-- The shape invariants a constructed index satisfies: positive
hyperparameters within `uint32` range, one SimHash per round, each with
`numHyperPlanes` hyperplanes of length `spaceDim`. -/
structure WF (l : LSH) : Prop where
  rounds_pos : 1 ≤ l.numRounds
  dim_pos : 1 ≤ l.spaceDim
  rounds_small : l.numRounds < U32
  hp_small : l.numHyperPlanes < U32
  dim_small : l.spaceDim < U32
  hashes_len : l.hashes.length = l.numRounds
  hashes_rows : ∀ sh ∈ l.hashes, sh.Hyperplanes.length = l.numHyperPlanes
  hashes_cols : ∀ sh ∈ l.hashes, ∀ row ∈ sh.Hyperplanes, row.length = l.spaceDim

/-- The state invariant Add maintains for one index: every entry under
the index's sketch prefix is a well-shaped bucket entry whose id has a
stored embedding of dimension `spaceDim`; and every stored embedding
has dimension `spaceDim` and all its round sketches' bucket entries
present. -/
def GoodState (l : LSH) (kv : KV) : Prop :=
  (∀ p ∈ kv, (sketchRoot l.indexName).data.isPrefixOf (p : String × Val).1.data = true →
    ∃ sk id, sk.length = l.numHyperPlanes ∧ p.1 = getSketchKey l.indexName sk id ∧
      p.2 = .vstr id ∧
      ∃ emb, kvGet kv (getEmbeddingKey l.indexName id) = .ok (.vreals emb) ∧
        emb.length = l.spaceDim) ∧
  (∀ id emb, kvGet kv (getEmbeddingKey l.indexName id) = .ok (.vreals emb) →
    emb.length = l.spaceDim ∧
    ∀ sks, getSketches l emb = .ok sks →
      ∀ sk ∈ sks, kvGet kv (getSketchKey l.indexName sk id) = .ok (.vstr id))

/-- The states of one index reachable by successful Add calls from a
fresh store (no bucket or embedding entries for this index yet, as
after construction).  The physical bound `emb.length < U32` records
that Go slice lengths stay below `2^32` in any real execution. -/
inductive Reachable (l : LSH) : KV → Prop where
  | init (kv : KV)
      (hsk : ∀ p ∈ kv, ¬ (sketchRoot l.indexName).data.isPrefixOf
        (p : String × Val).1.data = true)
      (hemb : ∀ p ∈ kv, ¬ (embRoot l.indexName).data.isPrefixOf
        (p : String × Val).1.data = true) :
      Reachable l kv
  | step (kv kv' : KV) (id : String) (emb : List ℝ) (hlen : emb.length < U32)
      (hadd : lshAdd l kv id emb = .ok kv') (hprev : Reachable l kv) :
      Reachable l kv'

/-- The concrete 1-round, 1-hyperplane, 2-dimensional index used by the
reachability witnesses. -/
def wLSH : LSH := ⟨"i", [⟨[[1, 0]]⟩], 1, 1, 2⟩

/-- The store after adding ("a", [1, 0]) to `wLSH` on an empty store. -/
def wKV : KV :=
  [(getEmbeddingKey "i" "a", .vreals [1, 0]), (getSketchKey "i" "1" "a", .vstr "a")]

end

/-! ## Store lemmas -/

theorem kvGet_upsert (kv : KV) (k : String) (v : Val) (key : String) :
    kvGet (kvUpsert kv k v) key = if k = key then .ok v else kvGet kv key := by
  induction kv with
  | nil =>
    by_cases hk : k = key <;> simp [kvUpsert, kvGet, hk]
  | cons p rest ih =>
    by_cases hp : p.1 = k
    · by_cases hk : k = key <;> simp [kvUpsert, kvGet, hp, hk]
    · by_cases hq : p.1 = key
      · have hk : k ≠ key := fun h => hp (hq.trans h.symm)
        simp [kvUpsert, kvGet, hp, hq, hk, Ne.symm hk]
      · by_cases hk : k = key
        · subst hk
          simp [kvUpsert, kvGet, hp, hq, ih]
        · simp [kvUpsert, kvGet, hp, hq, hk, ih]

theorem mem_kvUpsert (kv : KV) (k : String) (v : Val) (q : String × Val)
    (h : q ∈ kvUpsert kv k v) : q ∈ kv ∨ q = (k, v) := by
  induction kv with
  | nil => simp [kvUpsert] at h; simp [h]
  | cons p rest ih =>
    by_cases hp : p.1 = k
    · simp only [kvUpsert, hp, beq_self_eq_true, if_true, List.mem_cons] at h
      rcases h with h | h
      · exact Or.inr h
      · exact Or.inl (List.mem_cons_of_mem _ h)
    · simp only [kvUpsert, beq_iff_eq, hp, if_false, List.mem_cons] at h
      rcases h with h | h
      · exact Or.inl (h ▸ List.mem_cons_self _ _)
      · rcases ih h with h' | h'
        · exact Or.inl (List.mem_cons_of_mem _ h')
        · exact Or.inr h'

theorem kvGet_addBatch (kv : KV) (data : List (String × Val)) (key : String) :
    kvGet (kvAddBatch kv data) key =
      match data.reverse.find? (fun p => p.1 == key) with
      | some p => .ok p.2
      | none => kvGet kv key := by
  induction data generalizing kv with
  | nil => simp [kvAddBatch]
  | cons d rest ih =>
    have step : kvAddBatch kv (d :: rest) = kvAddBatch (kvUpsert kv d.1 d.2) rest := by
      simp [kvAddBatch]
    rw [step, ih, List.reverse_cons, List.find?_append]
    cases hfind : rest.reverse.find? (fun p => p.1 == key) with
    | some p => simp [hfind, Option.or]
    | none =>
      simp only [hfind, Option.none_or]
      by_cases hd : d.1 = key <;> simp [List.find?_cons, hd, kvGet_upsert]

theorem mem_kvAddBatch (kv : KV) (data : List (String × Val)) (q : String × Val)
    (h : q ∈ kvAddBatch kv data) : q ∈ kv ∨ q ∈ data := by
  induction data generalizing kv with
  | nil =>
    simp only [kvAddBatch, List.foldl_nil] at h
    exact Or.inl h
  | cons d rest ih =>
    have step : kvAddBatch kv (d :: rest) = kvAddBatch (kvUpsert kv d.1 d.2) rest := by
      simp [kvAddBatch]
    rw [step] at h
    rcases ih _ h with h' | h'
    · rcases mem_kvUpsert _ _ _ _ h' with h'' | h''
      · exact Or.inl h''
      · right; rw [h'']; exact List.mem_cons_self _ _
    · exact Or.inr (List.mem_cons_of_mem _ h')

/-! ## Key layout lemmas -/

theorem embKey_ne_sketchKey (I sk id id' : String) :
    getEmbeddingKey I id ≠ getSketchKey I sk id' := by
  intro h
  simp [getEmbeddingKey, getSketchKey, getSketchPrefKey, getIndexKey, String.ext_iff] at h

theorem embKey_inj {I id id' : String}
    (h : getEmbeddingKey I id = getEmbeddingKey I id') : id = id' := by
  simp [getEmbeddingKey, getIndexKey, String.ext_iff] at h
  exact String.ext h

theorem sketchRoot_prefix_sketchKey (I sk id : String) :
    (getSketchPrefKey I "").data.isPrefixOf (getSketchKey I sk id).data = true := by
  rw [List.isPrefixOf_iff_prefix]
  simp [getSketchKey, getSketchPrefKey, getIndexKey, String.data_append]

theorem sketchPref_prefix_sketchKey (I sk id : String) :
    (getSketchPrefKey I sk).data.isPrefixOf (getSketchKey I sk id).data = true := by
  rw [List.isPrefixOf_iff_prefix]
  simp [getSketchKey, String.data_append]

theorem sketchRoot_prefix_of_sketchPref (I sk : String) :
    (getSketchPrefKey I "").data <+: (getSketchPrefKey I sk).data := by
  simp [getSketchPrefKey, getIndexKey, String.data_append]

theorem sketchRoot_not_prefix_embKey (I id : String) :
    ¬ ((getSketchPrefKey I "").data.isPrefixOf (getEmbeddingKey I id).data = true) := by
  rw [List.isPrefixOf_iff_prefix]
  simp [getEmbeddingKey, getSketchPrefKey, getIndexKey, String.data_append]

theorem sketchKey_inj {I sk sk' id id' : String} (hlen : sk.length = sk'.length)
    (h : getSketchKey I sk id = getSketchKey I sk' id') : sk = sk' ∧ id = id' := by
  simp [getSketchKey, getSketchPrefKey, getIndexKey, String.ext_iff] at h
  have hl : sk.data.length = sk'.data.length := hlen
  obtain ⟨h1, h2⟩ := List.append_inj h hl
  refine ⟨String.ext h1, String.ext ?_⟩
  simpa using h2

/-! ## Encoding lemmas -/

theorem fromLEBytes8_toLEBytes8 (w : Nat) (h : w < 2 ^ 64) :
    fromLEBytes8 (toLEBytes8 w) = w := by
  simp [toLEBytes8, fromLEBytes8, List.range_succ]
  omega

theorem length_encodeFloat64Slice (s : List Nat) :
    (encodeFloat64Slice s).length = 8 * s.length := by
  induction s with
  | nil => simp [encodeFloat64Slice]
  | cons x t ih =>
    simp only [encodeFloat64Slice, List.map_cons, List.flatten_cons,
      List.length_append, List.length_cons] at *
    simp [toLEBytes8, ih]
    omega

theorem decodeFloat64Slice_append8 (hd tl : List Nat) (h8 : hd.length = 8) :
    decodeFloat64Slice (hd ++ tl) =
      match decodeFloat64Slice tl with
      | .error e => .error e
      | .ok rest => .ok (fromLEBytes8 hd :: rest) := by
  cases hd with
  | nil => simp at h8
  | cons b hs =>
    have h7 : hs.length = 7 := by simpa using h8
    rw [List.cons_append, decodeFloat64Slice]
    have hlen : ¬ (b :: (hs ++ tl)).length < 8 := by
      simp [h7]
    rw [if_neg hlen]
    have htake : (b :: (hs ++ tl)).take 8 = b :: hs := by
      rw [List.take_succ_cons, ← h7, List.take_left]
    have hdrop : (b :: (hs ++ tl)).drop 8 = tl := by
      rw [List.drop_succ_cons, ← h7, List.drop_left]
    rw [htake, hdrop]

theorem decodeFloat64Slice2D_append (hd tl : List Nat) (numCols : Nat)
    (h : hd.length = 8 * numCols) (hpos : 0 < numCols) :
    decodeFloat64Slice2D (hd ++ tl) numCols =
      match decodeFloat64Slice2D tl numCols with
      | .error e => .error e
      | .ok rest =>
        match decodeFloat64Slice hd with
        | .error e => .error e
        | .ok row => .ok (row :: rest) := by
  cases hd with
  | nil =>
    simp only [List.length_nil] at h
    omega
  | cons b hs =>
    have hlen8 : (b :: hs).length = 8 * numCols := h
    rw [List.cons_append, decodeFloat64Slice2D]
    rw [if_neg (by omega)]
    have hnott : ¬ (b :: (hs ++ tl)).length < 8 * numCols := by
      simp only [List.length_cons, List.length_append]
      simp only [List.length_cons] at hlen8
      omega
    rw [if_neg hnott]
    have htake : (b :: (hs ++ tl)).take (8 * numCols) = b :: hs := by
      rw [← hlen8, ← List.cons_append, List.take_left]
    have hdrop : (b :: (hs ++ tl)).drop (8 * numCols) = tl := by
      rw [← hlen8, ← List.cons_append, List.drop_left]
    rw [htake, hdrop]

theorem decode_encode_slice (s : List Nat) (hs : ∀ x ∈ s, x < 2 ^ 64) :
    decodeFloat64Slice (encodeFloat64Slice s) = .ok s := by
  induction s with
  | nil => simp [encodeFloat64Slice, decodeFloat64Slice]
  | cons x rest ih =>
    have hx := hs x (List.mem_cons_self _ _)
    have hrest : ∀ y ∈ rest, y < 2 ^ 64 := fun y hy => hs y (List.mem_cons_of_mem _ hy)
    have henc : encodeFloat64Slice (x :: rest) = toLEBytes8 x ++ encodeFloat64Slice rest := by
      simp [encodeFloat64Slice]
    rw [henc, decodeFloat64Slice_append8 _ _ (by simp [toLEBytes8]), ih hrest,
      fromLEBytes8_toLEBytes8 x hx]

/-! ## Re-ranker lemmas -/

theorem euclideanNorm_ok (v : List ℝ) (hv : v ≠ []) : ∃ n, euclideanNorm v = .ok n := by
  refine ⟨Real.sqrt (((v.zip v).map fun p => p.1 * p.2).sum), ?_⟩
  simp [euclideanNorm, dotProduct, List.length_eq_zero, hv]

theorem cosineSim_ok (a b : List ℝ) (na nb : ℝ) (h : a.length = b.length) :
    ∃ s, cosineSim a b na nb = .ok s := by
  by_cases hmask : na ≤ EPSILON ∨ nb ≤ EPSILON
  · exact ⟨-1, by simp [cosineSim, hmask]⟩
  · exact ⟨((a.zip b).map fun p => p.1 * p.2).sum / (na * nb),
      by simp [cosineSim, hmask, dotProduct, h]⟩

theorem collectSims_ok (q : List ℝ) (nq t : ℝ) (cs : List (String × List ℝ))
    (hq : q ≠ []) (hlen : ∀ p ∈ cs, (p.2 : List ℝ).length = q.length) :
    ∃ pairs, collectSims q nq t cs = .ok pairs := by
  induction cs with
  | nil => exact ⟨[], rfl⟩
  | cons p rest ih =>
    obtain ⟨pid, pv⟩ := p
    have hpv : pv.length = q.length := hlen (pid, pv) (List.mem_cons_self _ _)
    have hpvne : pv ≠ [] := by
      intro hc
      rw [hc] at hpv
      exact hq (List.length_eq_zero.mp hpv.symm)
    obtain ⟨nv, hnv⟩ := euclideanNorm_ok pv hpvne
    obtain ⟨s, hs⟩ := cosineSim_ok q pv nq nv hpv.symm
    obtain ⟨tail, htail⟩ := ih (fun p hp => hlen p (List.mem_cons_of_mem _ hp))
    exact ⟨if t ≤ s then (pid, s) :: tail else tail, by
      simp [collectSims, hnv, hs, htail]⟩

theorem collectSims_length_le (q : List ℝ) (nq t : ℝ) (cs : List (String × List ℝ))
    (pairs : List (String × ℝ)) (h : collectSims q nq t cs = .ok pairs) :
    pairs.length ≤ cs.length := by
  induction cs generalizing pairs with
  | nil =>
    simp only [collectSims, Except.ok.injEq] at h
    subst h
    simp
  | cons p rest ih =>
    obtain ⟨pid, pv⟩ := p
    simp only [collectSims] at h
    cases hnv : euclideanNorm pv with
    | error e => simp [hnv] at h
    | ok nv =>
      simp only [hnv] at h
      cases hcs : cosineSim q pv nq nv with
      | error e => simp [hcs] at h
      | ok s =>
        simp only [hcs] at h
        cases htail : collectSims q nq t rest with
        | error e => simp [htail] at h
        | ok tail =>
          simp only [htail, Except.ok.injEq] at h
          subst h
          have := ih tail htail
          by_cases hts : t ≤ s <;> simp [hts] <;> omega

theorem mem_collectSims (q : List ℝ) (nq t : ℝ) (cs : List (String × List ℝ))
    (pairs : List (String × ℝ)) (h : collectSims q nq t cs = .ok pairs)
    (id : String) (s : ℝ) :
    (id, s) ∈ pairs ↔ ∃ v nv, (id, v) ∈ cs ∧ euclideanNorm v = .ok nv ∧
      cosineSim q v nq nv = .ok s ∧ t ≤ s := by
  induction cs generalizing pairs with
  | nil =>
    simp only [collectSims, Except.ok.injEq] at h
    subst h
    simp
  | cons p rest ih =>
    obtain ⟨pid, pv⟩ := p
    simp only [collectSims] at h
    cases hnv : euclideanNorm pv with
    | error e => simp [hnv] at h
    | ok nv =>
      simp only [hnv] at h
      cases hcs : cosineSim q pv nq nv with
      | error e => simp [hcs] at h
      | ok s0 =>
        simp only [hcs] at h
        cases htail : collectSims q nq t rest with
        | error e => simp [htail] at h
        | ok tail =>
          simp only [htail, Except.ok.injEq] at h
          subst h
          constructor
          · intro hmem
            by_cases hts : t ≤ s0
            · rw [if_pos hts] at hmem
              rcases List.mem_cons.mp hmem with heq | hmem'
              · injection heq with h1 h2
                subst h1
                subst h2
                exact ⟨pv, nv, List.mem_cons_self _ _, hnv, hcs, hts⟩
              · obtain ⟨v, nv', hv, hn, hc, ht⟩ := (ih tail htail).mp hmem'
                exact ⟨v, nv', List.mem_cons_of_mem _ hv, hn, hc, ht⟩
            · rw [if_neg hts] at hmem
              obtain ⟨v, nv', hv, hn, hc, ht⟩ := (ih tail htail).mp hmem
              exact ⟨v, nv', List.mem_cons_of_mem _ hv, hn, hc, ht⟩
          · rintro ⟨v, nv', hv, hn, hc, ht⟩
            rcases List.mem_cons.mp hv with heq | hv'
            · injection heq with h1 h2
              subst h1
              subst h2
              rw [hnv] at hn
              injection hn with hn'
              subst hn'
              rw [hcs] at hc
              injection hc with hc'
              subst hc'
              rw [if_pos ht]
              exact List.mem_cons_self _ _
            · have hmem' := (ih tail htail).mpr ⟨v, nv', hv', hn, hc, ht⟩
              by_cases hts : t ≤ s0
              · rw [if_pos hts]
                exact List.mem_cons_of_mem _ hmem'
              · rwa [if_neg hts]

theorem mergeSort_simLE_sorted (pairs : List (String × ℝ)) :
    (pairs.mergeSort simLE).Pairwise (fun p p' => p'.2 ≤ p.2) := by
  have h := @List.sorted_mergeSort (String × ℝ) simLE
    (fun a b c h1 h2 => by
      simp only [simLE, decide_eq_true_eq] at *
      linarith)
    (fun a b => by
      simp only [simLE, Bool.or_eq_true, decide_eq_true_eq]
      exact le_total b.2 a.2) pairs
  exact h.imp (fun hab => by simpa [simLE] using hab)

/-! ## Error classification for the Add pipeline -/

theorem dotProduct_error {a b : List ℝ} {e : Err} (h : dotProduct a b = .error e) :
    e = .vectorsNotSameLen := by
  by_cases hc : a.length ≠ b.length <;> simp [dotProduct, hc] at h
  exact h.symm

theorem hash_error {p emb : List ℝ} {e : Err} (h : hash p emb = .error e) :
    e = .vectorsNotSameLen := by
  simp only [hash] at h
  cases hd : dotProduct p emb with
  | error e' =>
    rw [hd] at h
    injection h with h'
    exact h' ▸ dotProduct_error hd
  | ok r => simp [hd] at h

theorem sketchChars_error {emb : List ℝ} {hps : List (List ℝ)} :
    ∀ {e : Err}, sketchChars emb hps = .error e → e = .vectorsNotSameLen := by
  induction hps with
  | nil => intro e h; simp [sketchChars] at h
  | cons p t ih =>
    intro e h
    simp only [sketchChars] at h
    cases hh : hash p emb with
    | error e' =>
      rw [hh] at h
      injection h with h'
      exact h' ▸ hash_error hh
    | ok s =>
      rw [hh] at h
      cases ht : sketchChars emb t with
      | error e' =>
        simp only [ht] at h
        injection h with h'
        exact h' ▸ ih ht
      | ok rest => simp [ht] at h

theorem Sketch_error {sh : SimHash} {emb : List ℝ} {e : Err}
    (h : Sketch sh emb = .error e) : e = .vectorsNotSameLen := by
  simp only [Sketch] at h
  cases hc : sketchChars emb sh.Hyperplanes with
  | error e' =>
    rw [hc] at h
    injection h with h'
    exact h' ▸ sketchChars_error hc
  | ok sk => simp [hc] at h

theorem getSketchesAux_error {emb : List ℝ} {hs : List SimHash} :
    ∀ {e : Err}, getSketchesAux emb hs = .error e → e = .vectorsNotSameLen := by
  induction hs with
  | nil => intro e h; simp [getSketchesAux] at h
  | cons sh t ih =>
    intro e h
    simp only [getSketchesAux] at h
    cases hh : Sketch sh emb with
    | error e' =>
      rw [hh] at h
      injection h with h'
      exact h' ▸ Sketch_error hh
    | ok s =>
      rw [hh] at h
      cases ht : getSketchesAux emb t with
      | error e' =>
        simp only [ht] at h
        injection h with h'
        exact h' ▸ ih ht
      | ok rest => simp [ht] at h

theorem checkEmbedding_error {l : LSH} {emb : List ℝ} {e : Err}
    (h : checkEmbedding l emb = .error e) :
    e = .embeddingLen l.spaceDim (emb.length % U32) := by
  by_cases hc : l.spaceDim ≠ emb.length % U32 <;> simp [checkEmbedding, hc] at h
  exact h.symm

theorem prepareEmbedding_error {l : LSH} {id : String} {emb : List ℝ} {e : Err}
    (h : prepareEmbedding l id emb = .error e) :
    e = .embeddingLen l.spaceDim (emb.length % U32) := by
  simp only [prepareEmbedding] at h
  cases hc : checkEmbedding l emb with
  | error e' =>
    rw [hc] at h
    injection h with h'
    exact h' ▸ checkEmbedding_error hc
  | ok u => simp [hc] at h

theorem checkSketchLens_error {n : Nat} {sks : List String} {e : Err}
    (h : checkSketchLens n sks = .error e) : ∃ a b, e = .invalidSketchLen a b := by
  induction sks with
  | nil => simp [checkSketchLens] at h
  | cons sk t ih =>
    simp only [checkSketchLens] at h
    by_cases hc : n ≠ sk.length % U32
    · rw [if_pos hc] at h
      injection h with h'
      exact ⟨n, sk.length % U32, h'.symm⟩
    · rw [if_neg hc] at h
      exact ih h

theorem checkSketches_error {l : LSH} {sks : List String} {e : Err}
    (h : checkSketches l sks = .error e) :
    (∃ a b, e = .invalidNumSketches a b) ∨ ∃ a b, e = .invalidSketchLen a b := by
  simp only [checkSketches] at h
  by_cases hc : l.numRounds ≠ sks.length % U32
  · rw [if_pos hc] at h
    injection h with h'
    exact Or.inl ⟨l.numRounds, sks.length % U32, h'.symm⟩
  · rw [if_neg hc] at h
    exact Or.inr (checkSketchLens_error h)

theorem prepareSketches_error {l : LSH} {id : String} {sks : List String} {e : Err}
    (h : prepareSketches l id sks = .error e) :
    (∃ n, e = .invalidIDLen n) ∨ (∃ a b, e = .invalidNumSketches a b) ∨
      ∃ a b, e = .invalidSketchLen a b := by
  simp only [prepareSketches] at h
  by_cases hid : id.length = 0
  · rw [if_pos hid] at h
    injection h with h'
    exact Or.inl ⟨id.length, h'.symm⟩
  · rw [if_neg hid] at h
    cases hc : checkSketches l sks with
    | error e' =>
      rw [hc] at h
      injection h with h'
      exact Or.inr (h' ▸ checkSketches_error hc)
    | ok u => simp [hc] at h

theorem lshAdd_error_ne_dbni {l : LSH} {kv : KV} {id : String} {emb : List ℝ} {e : Err}
    (h : lshAdd l kv id emb = .error e) : e ≠ .dbHasNoIndex := by
  simp only [lshAdd] at h
  cases hpe : prepareEmbedding l id emb with
  | error e' =>
    rw [hpe] at h
    injection h with h'
    rw [← h', prepareEmbedding_error hpe]
    simp
  | ok embedData =>
    rw [hpe] at h
    cases hgs : getSketches l emb with
    | error e' =>
      simp only [hgs] at h
      injection h with h'
      rw [← h', getSketchesAux_error hgs]
      simp
    | ok sks =>
      simp only [hgs] at h
      cases hps : prepareSketches l id sks with
      | error e' =>
        simp only [hps] at h
        injection h with h'
        rcases prepareSketches_error hps with ⟨n, rfl⟩ | ⟨a, b, rfl⟩ | ⟨a, b, rfl⟩ <;>
          simp [← h']
      | ok sksData => simp [hps] at h

/-! ## Sketch shape and success lemmas -/

theorem kvGet_ok_mem {kv : KV} {key : String} {v : Val} (h : kvGet kv key = .ok v) :
    (key, v) ∈ kv := by
  induction kv with
  | nil => simp [kvGet] at h
  | cons p rest ih =>
    by_cases hp : p.1 = key
    · simp only [kvGet, hp, beq_self_eq_true, if_true, Except.ok.injEq] at h
      subst h
      have hpe : p = (key, p.2) := by rw [← hp]
      rw [List.mem_cons]
      exact Or.inl hpe.symm
    · simp only [kvGet, beq_iff_eq, hp, if_false] at h
      exact List.mem_cons_of_mem _ (ih h)

theorem embRoot_prefix_embKey (I id : String) :
    (embRoot I).data.isPrefixOf (getEmbeddingKey I id).data = true := by
  rw [List.isPrefixOf_iff_prefix]
  simp [embRoot, getEmbeddingKey, getIndexKey, String.data_append]

theorem hash_shape {p emb : List ℝ} {s : String} (h : hash p emb = .ok s) :
    s.length = 1 := by
  simp only [hash] at h
  cases hd : dotProduct p emb with
  | error e => simp [hd] at h
  | ok r =>
    simp only [hd, Except.ok.injEq] at h
    by_cases hr : (0 : ℝ) ≤ r <;> simp [hr] at h <;> rw [← h] <;> rfl

theorem sketchChars_shape {emb : List ℝ} {hps : List (List ℝ)} :
    ∀ {out : List String}, sketchChars emb hps = .ok out →
      out.length = hps.length ∧ ∀ s ∈ out, s.length = 1 := by
  induction hps with
  | nil =>
    intro out h
    simp only [sketchChars, Except.ok.injEq] at h
    subst h
    simp
  | cons p t ih =>
    intro out h
    simp only [sketchChars] at h
    cases hh : hash p emb with
    | error e => simp [hh] at h
    | ok s =>
      simp only [hh] at h
      cases ht : sketchChars emb t with
      | error e => simp [ht] at h
      | ok rest =>
        simp only [ht, Except.ok.injEq] at h
        subst h
        obtain ⟨hl, hall⟩ := ih ht
        refine ⟨by simp [hl], ?_⟩
        intro x hx
        rcases List.mem_cons.mp hx with rfl | hx'
        · exact hash_shape hh
        · exact hall x hx'

theorem foldl_append_length (l : List String) :
    ∀ acc : String, (l.foldl (· ++ ·) acc).length = acc.length + (l.map String.length).sum := by
  induction l with
  | nil => intro acc; simp
  | cons s t ih =>
    intro acc
    simp only [List.foldl_cons, List.map_cons, List.sum_cons]
    rw [ih (acc ++ s), String.length_append]
    omega

theorem sum_map_length_units {out : List String} (h : ∀ s ∈ out, s.length = 1) :
    (out.map String.length).sum = out.length := by
  induction out with
  | nil => simp
  | cons s t ih =>
    simp only [List.map_cons, List.sum_cons, List.length_cons]
    rw [h s (List.mem_cons_self _ _), ih (fun x hx => h x (List.mem_cons_of_mem _ hx))]
    omega

theorem join_length_of_units {out : List String} (h : ∀ s ∈ out, s.length = 1) :
    (String.join out).length = out.length := by
  have hdef : String.join out = out.foldl (· ++ ·) "" := rfl
  rw [hdef, foldl_append_length out "", sum_map_length_units h]
  simp

theorem Sketch_length {sh : SimHash} {emb : List ℝ} {sk : String}
    (h : Sketch sh emb = .ok sk) : sk.length = sh.Hyperplanes.length := by
  simp only [Sketch] at h
  cases hc : sketchChars emb sh.Hyperplanes with
  | error e => simp [hc] at h
  | ok out =>
    simp only [hc, Except.ok.injEq] at h
    subst h
    obtain ⟨hlen, hone⟩ := sketchChars_shape hc
    rw [join_length_of_units hone, hlen]

theorem sketchChars_ok {emb : List ℝ} {hps : List (List ℝ)}
    (h : ∀ row ∈ hps, (row : List ℝ).length = emb.length) :
    ∃ out, sketchChars emb hps = .ok out := by
  induction hps with
  | nil => exact ⟨[], rfl⟩
  | cons p t ih =>
    obtain ⟨out, hout⟩ := ih (fun r hr => h r (List.mem_cons_of_mem _ hr))
    have hp : p.length = emb.length := h p (List.mem_cons_self _ _)
    refine ⟨(if (0 : ℝ) ≤ ((p.zip emb).map fun q => q.1 * q.2).sum then "1" else "0") :: out, ?_⟩
    simp [sketchChars, hash, dotProduct, hp, hout]

theorem Sketch_ok {sh : SimHash} {emb : List ℝ}
    (h : ∀ row ∈ sh.Hyperplanes, (row : List ℝ).length = emb.length) :
    ∃ sk, Sketch sh emb = .ok sk := by
  obtain ⟨out, hout⟩ := sketchChars_ok h
  exact ⟨String.join out, by simp [Sketch, hout]⟩

theorem getSketchesAux_ok {emb : List ℝ} {hs : List SimHash}
    (h : ∀ sh ∈ hs, ∀ row ∈ (sh : SimHash).Hyperplanes, (row : List ℝ).length = emb.length) :
    ∃ sks, getSketchesAux emb hs = .ok sks := by
  induction hs with
  | nil => exact ⟨[], rfl⟩
  | cons sh t ih =>
    obtain ⟨sks, hsks⟩ := ih (fun x hx => h x (List.mem_cons_of_mem _ hx))
    obtain ⟨sk, hsk⟩ := Sketch_ok (h sh (List.mem_cons_self _ _))
    exact ⟨sk :: sks, by simp [getSketchesAux, hsk, hsks]⟩

theorem getSketchesAux_mem {emb : List ℝ} {hs : List SimHash} :
    ∀ {sks : List String}, getSketchesAux emb hs = .ok sks →
      sks.length = hs.length ∧ ∀ sk ∈ sks, ∃ sh ∈ hs, Sketch sh emb = .ok sk := by
  induction hs with
  | nil =>
    intro sks h
    simp only [getSketchesAux, Except.ok.injEq] at h
    subst h
    simp
  | cons sh t ih =>
    intro sks h
    simp only [getSketchesAux] at h
    cases hh : Sketch sh emb with
    | error e => simp [hh] at h
    | ok s =>
      simp only [hh] at h
      cases ht : getSketchesAux emb t with
      | error e => simp [ht] at h
      | ok rest =>
        simp only [ht, Except.ok.injEq] at h
        subst h
        obtain ⟨hl, hall⟩ := ih ht
        refine ⟨by simp [hl], ?_⟩
        intro x hx
        rcases List.mem_cons.mp hx with rfl | hx'
        · exact ⟨sh, List.mem_cons_self _ _, hh⟩
        · obtain ⟨sh', hsh', hs'⟩ := hall x hx'
          exact ⟨sh', List.mem_cons_of_mem _ hsh', hs'⟩

/-- A well-formed index sketches any `spaceDim`-dimensional vector, and
every sketch has length `numHyperPlanes`. -/
theorem getSketches_ok {l : LSH} {emb : List ℝ} (hwf : WF l)
    (hdim : emb.length = l.spaceDim) :
    ∃ sks, getSketches l emb = .ok sks ∧ sks.length = l.numRounds ∧
      ∀ sk ∈ sks, (sk : String).length = l.numHyperPlanes := by
  obtain ⟨sks, hsks⟩ := getSketchesAux_ok
    (fun sh hsh row hrow => by rw [hwf.hashes_cols sh hsh row hrow, hdim])
  obtain ⟨hl, hmem⟩ := getSketchesAux_mem hsks
  refine ⟨sks, hsks, by rw [hl, hwf.hashes_len], ?_⟩
  intro sk hsk
  obtain ⟨sh, hsh, hs⟩ := hmem sk hsk
  rw [Sketch_length hs, hwf.hashes_rows sh hsh]

/-- Inversion of a successful lsh Add: the dimension check passed, the
id is non-empty, and the new store is the old one plus the embedding
entry and one bucket entry per round sketch. -/
theorem lshAdd_ok_inv {l : LSH} {kv : KV} {id : String} {emb : List ℝ} {kv' : KV}
    (h : lshAdd l kv id emb = .ok kv') :
    l.spaceDim = emb.length % U32 ∧ id.length ≠ 0 ∧
      ∃ sks, getSketches l emb = .ok sks ∧
        kv' = kvAddBatch kv ([(getEmbeddingKey l.indexName id, .vreals emb)] ++
          sks.map fun sk => (getSketchKey l.indexName sk id, Val.vstr id)) := by
  simp only [lshAdd] at h
  cases hpe : prepareEmbedding l id emb with
  | error e => simp [hpe] at h
  | ok embedData =>
    simp only [hpe] at h
    cases hgs : getSketches l emb with
    | error e => simp [hgs] at h
    | ok sks =>
      simp only [hgs] at h
      cases hps : prepareSketches l id sks with
      | error e => simp [hps] at h
      | ok sksData =>
        simp only [hps, Except.ok.injEq] at h
        have hdim : l.spaceDim = emb.length % U32 := by
          simp only [prepareEmbedding] at hpe
          cases hce : checkEmbedding l emb with
          | error e => simp [hce] at hpe
          | ok u =>
            simp only [checkEmbedding] at hce
            by_cases hc : l.spaceDim ≠ emb.length % U32
            · simp [hc] at hce
            · exact not_not.mp hc
        have hed : embedData = [(getEmbeddingKey l.indexName id, .vreals emb)] := by
          simp only [prepareEmbedding] at hpe
          cases hce : checkEmbedding l emb with
          | error e => simp [hce] at hpe
          | ok u =>
            simp only [hce, Except.ok.injEq] at hpe
            exact hpe.symm
        have hid : id.length ≠ 0 := by
          simp only [prepareSketches] at hps
          by_cases hc : id.length = 0
          · simp [hc] at hps
          · exact hc
        have hsd : sksData = sks.map fun sk => (getSketchKey l.indexName sk id, Val.vstr id) := by
          simp only [prepareSketches] at hps
          rw [if_neg hid] at hps
          cases hcs : checkSketches l sks with
          | error e => simp [hcs] at hps
          | ok u =>
            simp only [hcs, Except.ok.injEq] at hps
            exact hps.symm
        exact ⟨hdim, hid, sks, rfl, by rw [← h, hed, hsd]⟩

/-! ## State invariant of Add -/

/-- After a successful Add, embedding lookups see the new vector for the
added id and are unchanged for every other id. -/
theorem lshAdd_emb_lookup {l : LSH} {kv : KV} {id : String} {emb : List ℝ} {kv' : KV}
    (hadd : lshAdd l kv id emb = .ok kv') :
    ∀ id', kvGet kv' (getEmbeddingKey l.indexName id') =
      if id' = id then .ok (.vreals emb)
      else kvGet kv (getEmbeddingKey l.indexName id') := by
  obtain ⟨hdim, hid, sks, hsks, hkv⟩ := lshAdd_ok_inv hadd
  intro id'
  subst hkv
  rw [kvGet_addBatch, List.reverse_append, List.find?_append]
  have hsk_none : ((sks.map fun sk =>
      (getSketchKey l.indexName sk id, Val.vstr id)).reverse).find?
        (fun p => p.1 == getEmbeddingKey l.indexName id') = none := by
    rw [List.find?_eq_none]
    intro p hp
    rw [List.mem_reverse, List.mem_map] at hp
    obtain ⟨sk, _, rfl⟩ := hp
    simp only [beq_iff_eq]
    exact fun hc => embKey_ne_sketchKey l.indexName sk id' id hc.symm
  rw [hsk_none, Option.none_or]
  by_cases hi : id' = id
  · subst hi
    simp [List.find?_cons]
  · have hne : ¬ (getEmbeddingKey l.indexName id == getEmbeddingKey l.indexName id') = true := by
      simp only [beq_iff_eq]
      intro hc
      exact hi (embKey_inj hc).symm
    simp [List.find?_cons, hne, hi]

/-- After a successful Add, the bucket entry of each round sketch of the
added vector holds the added id; every other bucket key (of full sketch
length) is unchanged. -/
theorem lshAdd_sketch_lookup {l : LSH} {kv : KV} {id : String} {emb : List ℝ} {kv' : KV}
    (hwf : WF l) (hadd : lshAdd l kv id emb = .ok kv')
    {sks : List String} (hsks : getSketches l emb = .ok sks) :
    ∀ sk0 id0, (sk0 : String).length = l.numHyperPlanes →
      ((id0 = id ∧ sk0 ∈ sks) →
        kvGet kv' (getSketchKey l.indexName sk0 id0) = .ok (.vstr id0)) ∧
      (¬ (id0 = id ∧ sk0 ∈ sks) →
        kvGet kv' (getSketchKey l.indexName sk0 id0) =
          kvGet kv (getSketchKey l.indexName sk0 id0)) := by
  obtain ⟨hdim, hid, sks', hsks', hkv⟩ := lshAdd_ok_inv hadd
  rw [hsks] at hsks'
  injection hsks' with he
  subst he
  have hshape : ∀ sk ∈ sks, (sk : String).length = l.numHyperPlanes := by
    intro sk hsk
    obtain ⟨_, hmem⟩ := getSketchesAux_mem hsks
    obtain ⟨sh, hsh, hs⟩ := hmem sk hsk
    rw [Sketch_length hs, hwf.hashes_rows sh hsh]
  intro sk0 id0 hlen0
  subst hkv
  rw [kvGet_addBatch, List.reverse_append, List.find?_append]
  constructor
  · rintro ⟨rfl, hmem0⟩
    cases hfind : ((sks.map fun sk =>
        (getSketchKey l.indexName sk id0, Val.vstr id0)).reverse).find?
          (fun p => p.1 == getSketchKey l.indexName sk0 id0) with
    | none =>
      exfalso
      rw [List.find?_eq_none] at hfind
      refine hfind (getSketchKey l.indexName sk0 id0, Val.vstr id0) ?_ (by simp)
      rw [List.mem_reverse]
      exact List.mem_map_of_mem _ hmem0
    | some p =>
      have hp := List.mem_of_find?_eq_some hfind
      rw [List.mem_reverse, List.mem_map] at hp
      obtain ⟨sk', _, rfl⟩ := hp
      simp [hfind, Option.or]
  · intro hnot
    have hfind : ((sks.map fun sk =>
        (getSketchKey l.indexName sk id, Val.vstr id)).reverse).find?
          (fun p => p.1 == getSketchKey l.indexName sk0 id0) = none := by
      rw [List.find?_eq_none]
      intro p hp
      rw [List.mem_reverse, List.mem_map] at hp
      obtain ⟨sk', hsk', rfl⟩ := hp
      simp only [beq_iff_eq]
      intro hc
      obtain ⟨h1, h2⟩ := sketchKey_inj ((hshape sk' hsk').trans hlen0.symm) hc
      exact hnot ⟨h2.symm, h1 ▸ hsk'⟩
    rw [hfind, Option.none_or]
    have hne : ¬ (getEmbeddingKey l.indexName id == getSketchKey l.indexName sk0 id0) = true := by
      simp only [beq_iff_eq]
      exact embKey_ne_sketchKey l.indexName sk0 id id0
    simp [List.find?_cons, hne]

/-- The invariant holds in any initial state with no bucket and no
embedding entries for the index. -/
theorem goodState_init {l : LSH} {kv : KV}
    (hsk : ∀ p ∈ kv, ¬ (sketchRoot l.indexName).data.isPrefixOf
      (p : String × Val).1.data = true)
    (hemb : ∀ p ∈ kv, ¬ (embRoot l.indexName).data.isPrefixOf
      (p : String × Val).1.data = true) :
    GoodState l kv := by
  constructor
  · intro p hp hpre
    exact absurd hpre (hsk p hp)
  · intro id emb hget
    exact absurd (embRoot_prefix_embKey l.indexName id) (hemb _ (kvGet_ok_mem hget))

/-- A successful Add preserves the invariant. -/
theorem goodState_step {l : LSH} {kv kv' : KV} {id : String} {emb : List ℝ}
    (hwf : WF l) (hg : GoodState l kv) (hlen : emb.length < U32)
    (hadd : lshAdd l kv id emb = .ok kv') : GoodState l kv' := by
  obtain ⟨hdim', hid, sks, hsks, hkv⟩ := lshAdd_ok_inv hadd
  have hdim : emb.length = l.spaceDim := by
    rw [hdim', Nat.mod_eq_of_lt hlen]
  have hshape : ∀ sk ∈ sks, (sk : String).length = l.numHyperPlanes := by
    intro sk hsk
    obtain ⟨_, hmem⟩ := getSketchesAux_mem hsks
    obtain ⟨sh, hsh, hs⟩ := hmem sk hsk
    rw [Sketch_length hs, hwf.hashes_rows sh hsh]
  have hembL := lshAdd_emb_lookup hadd
  have hskL := lshAdd_sketch_lookup hwf hadd hsks
  constructor
  · intro p hp hpre
    rw [hkv] at hp
    rcases mem_kvAddBatch _ _ _ hp with hold | hnew
    · obtain ⟨sk, id1, hsk1, hkey, hval, emb1, hget1, hlen1⟩ := hg.1 p hold hpre
      refine ⟨sk, id1, hsk1, hkey, hval, ?_⟩
      rw [hembL id1]
      by_cases hi : id1 = id
      · exact ⟨emb, by simp [hi], hdim ▸ rfl⟩
      · exact ⟨emb1, by simp [hi, hget1], hlen1⟩
    · rcases List.mem_append.mp hnew with hnew' | hnew'
      · rw [List.mem_singleton] at hnew'
        subst hnew'
        exfalso
        revert hpre
        simp only [sketchRoot]
        exact fun hpre => sketchRoot_not_prefix_embKey l.indexName id hpre
      · rw [List.mem_map] at hnew'
        obtain ⟨sk, hsk, rfl⟩ := hnew'
        refine ⟨sk, id, hshape sk hsk, rfl, rfl, emb, ?_, hdim ▸ rfl⟩
        rw [hembL id]
        simp
  · intro id1 emb1 hget1
    rw [hembL id1] at hget1
    by_cases hi : id1 = id
    · rw [if_pos hi] at hget1
      injection hget1 with he
      injection he with he2
      subst he2
      refine ⟨hdim ▸ rfl, ?_⟩
      intro sks1 hsks1 sk hsk
      rw [hsks] at hsks1
      injection hsks1 with he3
      subst he3
      exact (hskL sk id1 (hshape sk hsk)).1 ⟨hi, hsk⟩
    · rw [if_neg hi] at hget1
      obtain ⟨hlen1, hsk1⟩ := hg.2 id1 emb1 hget1
      refine ⟨hlen1, ?_⟩
      intro sks1 hsks1 sk hsk
      have hshape1 : (sk : String).length = l.numHyperPlanes := by
        obtain ⟨_, hmem⟩ := getSketchesAux_mem hsks1
        obtain ⟨sh, hsh, hs⟩ := hmem sk hsk
        rw [Sketch_length hs, hwf.hashes_rows sh hsh]
      rw [(hskL sk id1 hshape1).2 (fun hc => hi hc.1)]
      exact hsk1 sks1 hsks1 sk hsk

/-- Every reachable state satisfies the invariant. -/
theorem reachable_goodState {l : LSH} {kv : KV} (hwf : WF l) (hr : Reachable l kv) :
    GoodState l kv := by
  induction hr with
  | init kv hsk hemb => exact goodState_init hsk hemb
  | step kv kv' id emb hlen hadd hprev ih => exact goodState_step hwf ih hlen hadd

/-! ## Candidate collection lemmas -/

theorem bucket_ids_good {l : LSH} {kv : KV} {sk : String} (hg : GoodState l kv) :
    ∀ id' ∈ getBucketIDs l kv sk,
      ∃ emb, kvGet kv (getEmbeddingKey l.indexName id') = .ok (.vreals emb) ∧
        emb.length = l.spaceDim := by
  intro id' hid'
  simp only [getBucketIDs, List.mem_map] at hid'
  obtain ⟨v, hv, rfl⟩ := hid'
  simp only [kvPrefixScan, List.mem_map] at hv
  obtain ⟨p, hp, rfl⟩ := hv
  rw [List.mem_filter] at hp
  obtain ⟨hpkv, hpre⟩ := hp
  have hroot : (sketchRoot l.indexName).data.isPrefixOf p.1.data = true := by
    rw [List.isPrefixOf_iff_prefix] at hpre ⊢
    refine List.IsPrefix.trans ?_ hpre
    simpa [sketchRoot] using sketchRoot_prefix_of_sketchPref l.indexName sk
  obtain ⟨sk1, id1, hsk1, hkey, hval, emb, hget, hlen⟩ := hg.1 p hpkv hroot
  rw [hval]
  exact ⟨emb, hget, hlen⟩

theorem bucket_contains {l : LSH} {kv : KV} {sk id : String}
    (hentry : kvGet kv (getSketchKey l.indexName sk id) = .ok (.vstr id)) :
    id ∈ getBucketIDs l kv sk := by
  simp only [getBucketIDs, List.mem_map]
  refine ⟨.vstr id, ?_, rfl⟩
  simp only [kvPrefixScan, List.mem_map]
  refine ⟨(getSketchKey l.indexName sk id, .vstr id), ?_, rfl⟩
  rw [List.mem_filter]
  exact ⟨kvGet_ok_mem hentry, sketchPref_prefix_sketchKey l.indexName sk id⟩

theorem addCandidates_ok {l : LSH} {kv : KV} :
    ∀ {ids : List String},
      (∀ id ∈ ids, ∃ emb, kvGet kv (getEmbeddingKey l.indexName id) = .ok (.vreals emb) ∧
        emb.length = l.spaceDim) →
      ∀ {acc : List (String × List ℝ)},
        (∀ p ∈ acc, kvGet kv (getEmbeddingKey l.indexName (p : String × List ℝ).1) =
          .ok (.vreals p.2) ∧ (p.2 : List ℝ).length = l.spaceDim) →
        ∃ data, addCandidates l kv ids acc = .ok data ∧
          (∀ p ∈ acc, p ∈ data) ∧
          (∀ id ∈ ids, ∃ emb, (id, emb) ∈ data) ∧
          (∀ p ∈ data, kvGet kv (getEmbeddingKey l.indexName (p : String × List ℝ).1) =
            .ok (.vreals p.2) ∧ (p.2 : List ℝ).length = l.spaceDim) := by
  intro ids
  induction ids with
  | nil =>
    intro _ acc hacc
    exact ⟨acc, rfl, fun p hp => hp, by simp, hacc⟩
  | cons id t ih =>
    intro hids acc hacc
    obtain ⟨emb, hemb, hlen⟩ := hids id (List.mem_cons_self _ _)
    by_cases hin : acc.any (fun p => p.1 == id) = true
    · obtain ⟨data, hrun, hsub, hmem, hvals⟩ :=
        ih (fun x hx => hids x (List.mem_cons_of_mem _ hx)) hacc
      refine ⟨data, by simp [addCandidates, hin, hrun], hsub, ?_, hvals⟩
      intro x hx
      rcases List.mem_cons.mp hx with rfl | hx'
      · rw [List.any_eq_true] at hin
        obtain ⟨p, hp, hpeq⟩ := hin
        rw [beq_iff_eq] at hpeq
        refine ⟨p.2, ?_⟩
        have : p = (x, p.2) := by rw [← hpeq]
        exact this ▸ hsub p hp
      · exact hmem x hx'
    · have hgete : getEmbedding l kv id = .ok emb := by
        simp [getEmbedding, hemb]
      have hacc' : ∀ p ∈ acc ++ [(id, emb)],
          kvGet kv (getEmbeddingKey l.indexName (p : String × List ℝ).1) =
            .ok (.vreals p.2) ∧ (p.2 : List ℝ).length = l.spaceDim := by
        intro p hp
        rcases List.mem_append.mp hp with hp' | hp'
        · exact hacc p hp'
        · rw [List.mem_singleton] at hp'
          subst hp'
          exact ⟨hemb, hlen⟩
      obtain ⟨data, hrun, hsub, hmem, hvals⟩ :=
        ih (fun x hx => hids x (List.mem_cons_of_mem _ hx)) hacc'
      refine ⟨data, by simp [addCandidates, hin, hgete, hrun], ?_, ?_, hvals⟩
      · intro p hp
        exact hsub p (List.mem_append_left _ hp)
      · intro x hx
        rcases List.mem_cons.mp hx with rfl | hx'
        · exact ⟨emb, hsub (x, emb) (List.mem_append_right _ (List.mem_singleton.mpr rfl))⟩
        · exact hmem x hx'

theorem getEmbBuckets_ok {l : LSH} {kv : KV} (hg : GoodState l kv) :
    ∀ (sklist : List String) {acc : List (String × List ℝ)},
      (∀ p ∈ acc, kvGet kv (getEmbeddingKey l.indexName (p : String × List ℝ).1) =
        .ok (.vreals p.2) ∧ (p.2 : List ℝ).length = l.spaceDim) →
      ∃ data, getEmbeddingsFromBuckets l kv sklist acc = .ok data ∧
        (∀ p ∈ acc, p ∈ data) ∧
        (∀ sk ∈ sklist, ∀ id ∈ getBucketIDs l kv sk, ∃ emb, (id, emb) ∈ data) ∧
        (∀ p ∈ data, kvGet kv (getEmbeddingKey l.indexName (p : String × List ℝ).1) =
          .ok (.vreals p.2) ∧ (p.2 : List ℝ).length = l.spaceDim) := by
  intro sklist
  induction sklist with
  | nil =>
    intro acc hacc
    exact ⟨acc, rfl, fun p hp => hp, by simp, hacc⟩
  | cons sk rest ih =>
    intro acc hacc
    obtain ⟨data1, hrun1, hsub1, hmem1, hvals1⟩ :=
      addCandidates_ok (@bucket_ids_good l kv sk hg) hacc
    obtain ⟨data, hrun, hsub, hmem, hvals⟩ := ih hvals1
    refine ⟨data, by simp [getEmbeddingsFromBuckets, hrun1, hrun], ?_, ?_, hvals⟩
    · intro p hp
      exact hsub p (hsub1 p hp)
    · intro sk' hsk' id hid
      rcases List.mem_cons.mp hsk' with rfl | hsk''
      · obtain ⟨emb, hemb⟩ := hmem1 id hid
        exact ⟨emb, hsub _ hemb⟩
      · exact hmem sk' hsk'' id hid

theorem addCandidates_vals {l : LSH} {kv : KV} :
    ∀ {ids : List String} {acc data : List (String × List ℝ)},
      addCandidates l kv ids acc = .ok data →
      ∀ p ∈ data, p ∈ acc ∨ getEmbedding l kv (p : String × List ℝ).1 = .ok p.2 := by
  intro ids
  induction ids with
  | nil =>
    intro acc data h p hp
    simp only [addCandidates, Except.ok.injEq] at h
    subst h
    exact Or.inl hp
  | cons id t ih =>
    intro acc data h p hp
    simp only [addCandidates] at h
    by_cases hin : acc.any (fun p => p.1 == id) = true
    · rw [if_pos hin] at h
      exact ih h p hp
    · rw [if_neg hin] at h
      cases hge : getEmbedding l kv id with
      | error e => simp [hge] at h
      | ok emb =>
        simp only [hge] at h
        rcases ih h p hp with hacc | hval
        · rcases List.mem_append.mp hacc with hacc' | hacc'
          · exact Or.inl hacc'
          · rw [List.mem_singleton] at hacc'
            subst hacc'
            exact Or.inr hge
        · exact Or.inr hval

theorem getEmbBuckets_vals {l : LSH} {kv : KV} :
    ∀ {sklist : List String} {acc data : List (String × List ℝ)},
      getEmbeddingsFromBuckets l kv sklist acc = .ok data →
      ∀ p ∈ data, p ∈ acc ∨ getEmbedding l kv (p : String × List ℝ).1 = .ok p.2 := by
  intro sklist
  induction sklist with
  | nil =>
    intro acc data h p hp
    simp only [getEmbeddingsFromBuckets, Except.ok.injEq] at h
    subst h
    exact Or.inl hp
  | cons sk rest ih =>
    intro acc data h p hp
    simp only [getEmbeddingsFromBuckets] at h
    cases hac : addCandidates l kv (getBucketIDs l kv sk) acc with
    | error e => simp [hac] at h
    | ok data1 =>
      simp only [hac] at h
      rcases ih h p hp with h1 | h1
      · rcases addCandidates_vals hac p h1 with h2 | h2
        · exact Or.inl h2
        · exact Or.inr h2
      · exact Or.inr h1

theorem zip_self_eq_map (l : List ℝ) : l.zip l = l.map fun x => (x, x) := by
  induction l with
  | nil => rfl
  | cons x t ih => simp [List.zip_cons_cons, ih]

/-! ## C1 and C2 -/

/-- C1: no false positives.  In every reachable index state, every id
`b` returned by Get for query `a` (threshold `t`, any `k`) has a stored
vector whose cosine similarity with `a` — computed exactly as the
re-ranker computes it — is at least `t`. -/
theorem lshGet_no_false_positives {l : LSH} {kv : KV} (hwf : WF l) (hre : Reachable l kv)
    {a : List ℝ} (ha : a.length = l.spaceDim) {t : ℝ} {k : Nat} {ids : List String}
    (hget : lshGet l kv a t k = .ok ids) {b : String} (hb : b ∈ ids) :
    ∃ emb nq nv s, getEmbedding l kv b = .ok emb ∧ euclideanNorm a = .ok nq ∧
      euclideanNorm emb = .ok nv ∧ cosineSim a emb nq nv = .ok s ∧ t ≤ s := by
  simp only [lshGet] at hget
  cases hcgp : checkGetParams l a t with
  | error e => simp [hcgp] at hget
  | ok u =>
    simp only [hcgp] at hget
    cases hsks : getSketches l a with
    | error e => simp [hsks] at hget
    | ok sks =>
      simp only [hsks] at hget
      cases hdata : getEmbeddingsFromBuckets l kv sks [] with
      | error e => simp [hdata] at hget
      | ok data =>
        simp only [hdata, Search] at hget
        cases hnq : euclideanNorm a with
        | error e => simp [hnq] at hget
        | ok nq =>
          simp only [hnq] at hget
          cases hcoll : collectSims a nq t data with
          | error e => simp [hcoll] at hget
          | ok pairs =>
            simp only [hcoll] at hget
            have hb' : b ∈ (pairs.mergeSort simLE).map Prod.fst := by
              by_cases hcase : k = 0 ∨
                  ((pairs.mergeSort simLE).map Prod.fst).length % U32 < k
              · rw [if_pos hcase] at hget
                injection hget with h'
                subst h'
                exact hb
              · rw [if_neg hcase] at hget
                injection hget with h'
                subst h'
                exact List.take_subset _ _ hb
            rw [List.mem_map] at hb'
            obtain ⟨p, hp, rfl⟩ := hb'
            rw [List.mem_mergeSort] at hp
            obtain ⟨v, nv, hv, hn, hc, ht⟩ :=
              (mem_collectSims a nq t data pairs hcoll p.1 p.2).mp hp
            rcases getEmbBuckets_vals hdata (p.1, v) hv with hacc | hgete
            · simp at hacc
            · exact ⟨v, nq, nv, p.2, hgete, rfl, hn, hc, ht⟩

/-- C2 (amended): self-match for the stored vector.  In every reachable
state in which `id`'s stored vector is `vec` (i.e., the last successful
`Add` for `id` wrote `vec`) and `vec`'s norm exceeds the EPSILON mask,
`Get(vec, 0, 0)` succeeds and returns a list containing `id`. -/
theorem lshGet_self_match {l : LSH} {kv : KV} {id : String} {vec : List ℝ}
    (hwf : WF l) (hre : Reachable l kv)
    (hstored : kvGet kv (getEmbeddingKey l.indexName id) = .ok (.vreals vec))
    (hnorm : ∀ n, euclideanNorm vec = .ok n → EPSILON < n) :
    ∃ ids, lshGet l kv vec 0 0 = .ok ids ∧ id ∈ ids := by
  have hg := reachable_goodState hwf hre
  obtain ⟨hdim, hsketches⟩ := hg.2 id vec hstored
  have hvne : vec ≠ [] := by
    intro hc
    rw [hc] at hdim
    have := hwf.dim_pos
    simp at hdim
    omega
  have hce : checkEmbedding l vec = .ok () := by
    simp [checkEmbedding, hdim, Nat.mod_eq_of_lt hwf.dim_small]
  have hct : checkThreshold (0 : ℝ) = .ok () := by
    norm_num [checkThreshold]
  have hcgp : checkGetParams l vec 0 = .ok () := by
    simp [checkGetParams, hce, hct]
  obtain ⟨sks, hsks, hlenR, hshape⟩ := getSketches_ok hwf hdim
  obtain ⟨sk0, hsk0⟩ : ∃ sk0, sk0 ∈ sks := by
    cases sks with
    | nil =>
      exfalso
      have h1 := hwf.rounds_pos
      rw [List.length_nil] at hlenR
      omega
    | cons s rest => exact ⟨s, List.mem_cons_self _ _⟩
  have hentry := hsketches sks hsks sk0 hsk0
  have hidmem : id ∈ getBucketIDs l kv sk0 := bucket_contains hentry
  obtain ⟨data, hdata, hsub, hbuckets, hvals⟩ :=
    @getEmbBuckets_ok l kv hg sks [] (by simp)
  obtain ⟨emb0, hmem0⟩ := hbuckets sk0 hsk0 id hidmem
  have hemb0 : emb0 = vec := by
    have h1 := (hvals (id, emb0) hmem0).1
    rw [hstored] at h1
    injection h1 with h2
    injection h2 with h3
    exact h3.symm
  rw [hemb0] at hmem0
  obtain ⟨nq, hnq⟩ := euclideanNorm_ok vec hvne
  have heps := hnorm nq hnq
  have hall : ∀ p ∈ data, ((p : String × List ℝ).2 : List ℝ).length = vec.length := by
    intro p hp
    rw [(hvals p hp).2, hdim]
  obtain ⟨pairs, hpairs⟩ := collectSims_ok vec nq 0 data hvne hall
  have hnqval : nq = Real.sqrt (((vec.zip vec).map fun p => p.1 * p.2).sum) := by
    simp only [euclideanNorm, dotProduct, List.length_eq_zero] at hnq
    rw [if_neg hvne, if_neg (by simp)] at hnq
    injection hnq with h'
    exact h'.symm
  have hd_nonneg : 0 ≤ ((vec.zip vec).map fun p => p.1 * p.2).sum := by
    rw [zip_self_eq_map, List.map_map]
    refine List.sum_nonneg ?_
    intro x hx
    rw [List.mem_map] at hx
    obtain ⟨y, _, rfl⟩ := hx
    exact mul_self_nonneg y
  have hnq_pos : 0 < nq := lt_trans (by norm_num [EPSILON]) heps
  have hd_pos : nq * nq = ((vec.zip vec).map fun p => p.1 * p.2).sum := by
    rw [hnqval]
    exact Real.mul_self_sqrt hd_nonneg
  have hsim : cosineSim vec vec nq nq = .ok 1 := by
    rw [cosineSim, if_neg (by push_neg; constructor <;> linarith)]
    rw [dotProduct, if_neg (by simp)]
    have hnz : nq * nq ≠ 0 := by positivity
    rw [← hd_pos]
    simp [div_self hnz]
  have hmempair : (id, (1 : ℝ)) ∈ pairs :=
    (mem_collectSims vec nq 0 data pairs hpairs id 1).mpr
      ⟨vec, nq, hmem0, hnq, hsim, by norm_num⟩
  refine ⟨(pairs.mergeSort simLE).map Prod.fst, ?_, ?_⟩
  · simp [lshGet, hcgp, hsks, hdata, Search, hnq, hpairs]
  · rw [List.mem_map]
    exact ⟨(id, 1), List.mem_mergeSort.mpr hmempair, rfl⟩

/-! ## Concrete evaluation for the C1/C2 witnesses -/

theorem wLSH_wf : WF wLSH := by
  refine ⟨?_, ?_, ?_, ?_, ?_, ?_, ?_, ?_⟩ <;>
    simp [wLSH, U32] <;> norm_num

theorem wNorm_eval : euclideanNorm ([1, 0] : List ℝ) = .ok 1 := by
  have h : euclideanNorm ([1, 0] : List ℝ) = .ok (Real.sqrt 1) := by
    norm_num [euclideanNorm, dotProduct]
  rwa [Real.sqrt_one] at h

theorem wSketches_eval :
    getSketches wLSH ([1, 0] : List ℝ) = .ok ["1"] := by
  simp [wLSH, getSketches, getSketchesAux, Sketch, sketchChars, hash, dotProduct,
    String.join]

theorem wAdd_eval : lshAdd wLSH [] "a" [1, 0] = .ok wKV := by
  have hne : ¬ (getEmbeddingKey "i" "a" == getSketchKey "i" "1" "a") = true := by
    simp only [beq_iff_eq]
    exact embKey_ne_sketchKey "i" "1" "a" "a"
  have ha : ("a" : String).length = 1 := rfl
  have h1 : ("1" : String).length = 1 := rfl
  have hsks := wSketches_eval
  simp only [wLSH] at hsks
  simp [wLSH, wKV, lshAdd, prepareEmbedding, checkEmbedding, U32, hsks, prepareSketches,
    checkSketches, checkSketchLens, kvAddBatch, kvUpsert, hne, ha, h1]

theorem wReach : Reachable wLSH wKV :=
  Reachable.step [] wKV "a" [1, 0] (by norm_num [U32]) wAdd_eval
    (Reachable.init [] (by simp) (by simp))

theorem wStored :
    kvGet wKV (getEmbeddingKey wLSH.indexName "a") = .ok (.vreals [1, 0]) := by
  simp [wLSH, wKV, kvGet]

theorem wGet_eval : lshGet wLSH wKV [1, 0] 0 0 = .ok ["a"] := by
  have hcgp : checkGetParams wLSH [1, 0] 0 = .ok () := by
    norm_num [wLSH, checkGetParams, checkEmbedding, checkThreshold, U32]
  have hbucket : getBucketIDs wLSH wKV "1" = ["a"] := by
    have hp1 : (getSketchPrefKey "i" "1").data.isPrefixOf
        (getEmbeddingKey "i" "a").data = false := by decide
    have hp2 : (getSketchPrefKey "i" "1").data.isPrefixOf
        (getSketchKey "i" "1" "a").data = true := by decide
    simp [getBucketIDs, wLSH, wKV, kvPrefixScan, hp1, hp2, valToString]
  have hemb : getEmbedding wLSH wKV "a" = .ok [1, 0] := by
    simp [getEmbedding, wLSH, wKV, kvGet]
  have hcand : getEmbeddingsFromBuckets wLSH wKV ["1"] [] = .ok [("a", [1, 0])] := by
    simp [getEmbeddingsFromBuckets, addCandidates, hbucket, hemb, valToString]
  have hcos : cosineSim [1, 0] [1, 0] 1 1 = .ok 1 := by
    rw [cosineSim, if_neg (by norm_num [EPSILON])]
    norm_num [dotProduct]
  have hsearch : Search [1, 0] [("a", [1, 0])] 0 0 = .ok ["a"] := by
    simp [Search, wNorm_eval, collectSims, hcos]
  simp [lshGet, hcgp, wSketches_eval, hcand, hsearch]

/-- C1 witness: the concrete 1-round index and the store after one Add;
Get([1,0], 0, 0) returns ["a"], and the theorem's conclusion holds
there. -/
theorem lshGet_no_false_positives_witness :
    (WF wLSH ∧ Reachable wLSH wKV ∧ ([1, 0] : List ℝ).length = wLSH.spaceDim ∧
      lshGet wLSH wKV [1, 0] 0 0 = .ok ["a"] ∧ "a" ∈ ["a"]) ∧
    (∃ emb nq nv s, getEmbedding wLSH wKV "a" = .ok emb ∧
      euclideanNorm [1, 0] = .ok nq ∧ euclideanNorm emb = .ok nv ∧
      cosineSim [1, 0] emb nq nv = .ok s ∧ (0 : ℝ) ≤ s) :=
  ⟨⟨wLSH_wf, wReach, by simp [wLSH], wGet_eval, by simp⟩,
    lshGet_no_false_positives wLSH_wf wReach (by simp [wLSH]) wGet_eval (by simp)⟩

/-- C2 counterexample: the claim as stated fails for the zero vector.
Add("z", [0,0]) succeeds on the 1-round index (the sketch of [0,0] is
"1"), but Get([0,0], 0, 0) returns the empty list: the re-ranker masks
the zero norm to similarity −1, and −1 ≥ 0 is false, so "z" is
filtered out of its own self-query. -/
theorem lshGet_self_match_counterexample :
    lshAdd wLSH [] "z" [0, 0] =
      .ok [(getEmbeddingKey "i" "z", .vreals [0, 0]),
           (getSketchKey "i" "1" "z", .vstr "z")] ∧
    lshGet wLSH [(getEmbeddingKey "i" "z", .vreals [0, 0]),
        (getSketchKey "i" "1" "z", .vstr "z")] [0, 0] 0 0 = .ok [] ∧
    "z" ∉ ([] : List String) := by
  have hsks : getSketches wLSH ([0, 0] : List ℝ) = .ok ["1"] := by
    simp [wLSH, getSketches, getSketchesAux, Sketch, sketchChars, hash, dotProduct,
      String.join]
  have hine : ¬ (getEmbeddingKey "i" "z" == getSketchKey "i" "1" "z") = true := by
    simp only [beq_iff_eq]
    exact embKey_ne_sketchKey "i" "1" "z" "z"
  refine ⟨?_, ?_, by simp⟩
  · have hsks' := hsks
    simp only [wLSH] at hsks'
    have hz : ("z" : String).length = 1 := rfl
    have h1 : ("1" : String).length = 1 := rfl
    simp [wLSH, lshAdd, prepareEmbedding, checkEmbedding, U32, hsks', prepareSketches,
      checkSketches, checkSketchLens, kvAddBatch, kvUpsert, hine, hz, h1]
  · have hcgp : checkGetParams wLSH [0, 0] 0 = .ok () := by
      norm_num [wLSH, checkGetParams, checkEmbedding, checkThreshold, U32]
    have hbucket : getBucketIDs wLSH [(getEmbeddingKey "i" "z", .vreals [0, 0]),
        (getSketchKey "i" "1" "z", .vstr "z")] "1" = ["z"] := by
      have hp1 : (getSketchPrefKey "i" "1").data.isPrefixOf
          (getEmbeddingKey "i" "z").data = false := by decide
      have hp2 : (getSketchPrefKey "i" "1").data.isPrefixOf
          (getSketchKey "i" "1" "z").data = true := by decide
      simp [getBucketIDs, wLSH, kvPrefixScan, hp1, hp2, valToString]
    have hemb : getEmbedding wLSH [(getEmbeddingKey "i" "z", .vreals [0, 0]),
        (getSketchKey "i" "1" "z", .vstr "z")] "z" = .ok [0, 0] := by
      simp [getEmbedding, wLSH, kvGet]
    have hcand : getEmbeddingsFromBuckets wLSH [(getEmbeddingKey "i" "z", .vreals [0, 0]),
        (getSketchKey "i" "1" "z", .vstr "z")] ["1"] [] = .ok [("z", [0, 0])] := by
      simp [getEmbeddingsFromBuckets, addCandidates, hbucket, hemb, valToString]
    have hzero : euclideanNorm ([0, 0] : List ℝ) = .ok 0 := by
      have h : euclideanNorm ([0, 0] : List ℝ) = .ok (Real.sqrt 0) := by
        norm_num [euclideanNorm, dotProduct]
      rwa [Real.sqrt_zero] at h
    have hcos : cosineSim [0, 0] [0, 0] 0 0 = .ok (-1) := by
      rw [cosineSim, if_pos (Or.inl (by norm_num [EPSILON]))]
    have hsearch : Search [0, 0] [("z", [0, 0])] 0 0 = .ok [] := by
      simp [Search, hzero, collectSims, hcos]
      rw [if_neg (by norm_num)]
      simp
    simp [lshGet, hcgp, hsks, hcand, hsearch]

/-- C2 witness: the same concrete state; the added vector [1,0] has
norm 1 > EPSILON and Get finds its id. -/
theorem lshGet_self_match_witness :
    (WF wLSH ∧ Reachable wLSH wKV ∧
      kvGet wKV (getEmbeddingKey wLSH.indexName "a") = .ok (.vreals [1, 0]) ∧
      (∀ n, euclideanNorm ([1, 0] : List ℝ) = .ok n → EPSILON < n)) ∧
    (∃ ids, lshGet wLSH wKV [1, 0] 0 0 = .ok ids ∧ "a" ∈ ids) := by
  have hnorm : ∀ n, euclideanNorm ([1, 0] : List ℝ) = .ok n → EPSILON < n := by
    intro n h
    rw [wNorm_eval] at h
    injection h with h'
    rw [← h']
    norm_num [EPSILON]
  exact ⟨⟨wLSH_wf, wReach, wStored, hnorm⟩,
    lshGet_self_match wLSH_wf wReach wStored hnorm⟩

/-! ## Fan-out characterization (DB.Add) -/

/-- The Add fan-out loop stops at the first failing step: there is a cut
`j` such that every step before `j` succeeds, the store holds exactly
the updates of those steps, and either every name was handled
(`j = names.length`, no error) or step `j` is the first failure and its
error is returned with the store as of just before it. -/
theorem goAdd_spec (reg : List (String × LSH)) (itemID : String) (itemVec : List ℝ) :
    ∀ (names : List String) (kv : KV),
      ∃ j, j ≤ names.length ∧
        (∀ i, i < j →
          stepErr reg itemID itemVec (names.getD i "")
            (addAllKV reg itemID itemVec (names.take i) kv) = none) ∧
        (goAdd reg itemID itemVec names kv).1 =
          addAllKV reg itemID itemVec (names.take j) kv ∧
        ((j = names.length ∧ (goAdd reg itemID itemVec names kv).2 = none) ∨
          (j < names.length ∧
            (goAdd reg itemID itemVec names kv).2 =
              stepErr reg itemID itemVec (names.getD j "")
                (addAllKV reg itemID itemVec (names.take j) kv) ∧
            stepErr reg itemID itemVec (names.getD j "")
              (addAllKV reg itemID itemVec (names.take j) kv) ≠ none)) := by
  intro names
  induction names with
  | nil =>
    intro kv
    exact ⟨0, Nat.le_refl _, fun i hi => absurd hi (Nat.not_lt_zero i),
      by simp [goAdd, addAllKV], Or.inl ⟨rfl, by simp [goAdd]⟩⟩
  | cons n t ih =>
    intro kv
    cases hreg : regGet reg n with
    | none =>
      refine ⟨0, Nat.zero_le _, fun i hi => absurd hi (Nat.not_lt_zero i),
        by simp [goAdd, hreg, addAllKV], Or.inr ⟨Nat.succ_pos _, ?_, ?_⟩⟩
      · simp [goAdd, hreg, addAllKV, stepErr]
      · simp [addAllKV, stepErr, hreg]
    | some l =>
      cases hstep : lshAdd l kv itemID itemVec with
      | error e =>
        refine ⟨0, Nat.zero_le _, fun i hi => absurd hi (Nat.not_lt_zero i),
          by simp [goAdd, hreg, hstep, addAllKV], Or.inr ⟨Nat.succ_pos _, ?_, ?_⟩⟩
        · simp [goAdd, hreg, hstep, addAllKV, stepErr]
        · simp [addAllKV, stepErr, hreg, hstep]
      | ok kv' =>
        obtain ⟨j, hj, hpre, hkv, hlast⟩ := ih kv'
        have htake : ∀ i : Nat, addAllKV reg itemID itemVec ((n :: t).take (i + 1)) kv =
            addAllKV reg itemID itemVec (t.take i) kv' := by
          intro i
          simp [addAllKV, List.take_succ_cons, hreg, hstep]
        have hgo : goAdd reg itemID itemVec (n :: t) kv = goAdd reg itemID itemVec t kv' := by
          simp [goAdd, hreg, hstep]
        refine ⟨j + 1, Nat.succ_le_succ hj, ?_, ?_, ?_⟩
        · intro i hi
          cases i with
          | zero => simp [addAllKV, stepErr, hreg, hstep]
          | succ i' =>
            rw [List.getD_cons_succ, htake i']
            exact hpre i' (Nat.lt_of_succ_lt_succ hi)
        · rw [hgo, htake j, hkv]
        · rcases hlast with ⟨hjl, hnone⟩ | ⟨hjl, herr, hne⟩
          · exact Or.inl ⟨by simp [hjl], by rw [hgo]; exact hnone⟩
          · refine Or.inr ⟨Nat.succ_lt_succ hjl, ?_, ?_⟩
            · rw [hgo, List.getD_cons_succ, htake j]
              exact herr
            · rw [List.getD_cons_succ, htake j]
              exact hne

/-- Any error the fan-out loop itself produces is never DBHasNoIndex:
lookups fail with IndexDoesNotExist and per-index Adds fail with the
index errors classified above. -/
theorem goAdd_error_ne_dbni {reg : List (String × LSH)} {itemID : String}
    {itemVec : List ℝ} {e : Err} :
    ∀ {names : List String} {kv : KV},
      (goAdd reg itemID itemVec names kv).2 = some e → e ≠ .dbHasNoIndex := by
  intro names
  induction names with
  | nil => intro kv h; simp [goAdd] at h
  | cons n t ih =>
    intro kv h
    cases hreg : regGet reg n with
    | none =>
      simp [goAdd, hreg] at h
      simp [← h]
    | some l =>
      cases hstep : lshAdd l kv itemID itemVec with
      | error e' =>
        simp [goAdd, hreg, hstep] at h
        exact h ▸ lshAdd_error_ne_dbni hstep
      | ok kv' =>
        simp only [goAdd, hreg, hstep] at h
        exact ih h

/-! ## Claim theorems -/

/-- C5 (code_bug evidence): rollback misses UUID-named indexes.  The
loop variable `config` in addLSH is a copy, so replacing an empty
`IndexName` by a generated UUID never reaches the `configs` slice that
addLSHRollback later walks; rollback deletes the original (empty) name,
which is registered under nothing, and the UUID-registered index stays.
Concretely: configs `[{IndexName:""}, {IndexName:"a"}, {IndexName:"a"}]`
(with `uuid.NewString()` returning "u") fail with IndexAlreadyExists,
yet the registry still holds "u" instead of being rolled back to
empty. -/
theorem addLSH_rollback_leaves_uuid_index :
    ((dbNew [⟨"", 1, 1, 2⟩, ⟨"a", 1, 1, 2⟩, ⟨"a", 1, 1, 2⟩] [] (fun _ => "u")
        (fun _ _ _ _ => 1)).2 = some (.indexAlreadyExists "a")) ∧
      ((dbNew [⟨"", 1, 1, 2⟩, ⟨"a", 1, 1, 2⟩, ⟨"a", 1, 1, 2⟩] [] (fun _ => "u")
        (fun _ _ _ _ => 1)).1.registry.map Prod.fst = ["u"]) := by
  have h0 : toString (0 : Nat) = "0" := rfl
  constructor <;>
    simp [dbNew, addLSH, addLSHLoop, regKeyExists, lshNew, kvKeyExists, setHyperParams,
      MIN_NUM_ROUNDS, MIN_NUM_HYPERPLANES, MIN_SPACE_DIM, mkHashes, generateHyperplanes,
      storeConfig, hashEntries, kvAddBatch, kvUpsert, regAdd, addLSHRollback, regDel,
      getIndexKey, getNumRoundsKey, getNumHyperPlanesKey, getSpaceDimKey,
      getHyperPlanesKey, h0, List.range_succ]

/-- C9: DB.Add fan-out.  It fails with DBHasNoIndex exactly when the
registry is empty (and then changes nothing); an empty name list fans
out to every registered index; and the fan-out loop stops at the first
failing step — a missing name produces IndexDoesNotExist (visible in
`stepErr`), and the store keeps exactly the updates of the indexes
handled before the failure. -/
theorem db_add_fanout (db : ModelDB) (itemID : String) (itemVec : List ℝ)
    (ns : List String) (hsmall : db.registry.length < U32) :
    ((dbAdd db itemID itemVec ns).2 = some .dbHasNoIndex ↔ db.registry = []) ∧
    (db.registry = [] → dbAdd db itemID itemVec ns = (db.kv, some .dbHasNoIndex)) ∧
    (dbAdd db itemID itemVec [] = dbAdd db itemID itemVec (Indexes db)) ∧
    (∀ names, names = (if ns.isEmpty then Indexes db else ns) → db.registry ≠ [] →
      ∃ j, j ≤ names.length ∧
        (∀ i, i < j →
          stepErr db.registry itemID itemVec (names.getD i "")
            (addAllKV db.registry itemID itemVec (names.take i) db.kv) = none) ∧
        (dbAdd db itemID itemVec ns).1 =
          addAllKV db.registry itemID itemVec (names.take j) db.kv ∧
        ((j = names.length ∧ (dbAdd db itemID itemVec ns).2 = none) ∨
          (j < names.length ∧
            (dbAdd db itemID itemVec ns).2 =
              stepErr db.registry itemID itemVec (names.getD j "")
                (addAllKV db.registry itemID itemVec (names.take j) db.kv) ∧
            stepErr db.registry itemID itemVec (names.getD j "")
              (addAllKV db.registry itemID itemVec (names.take j) db.kv) ≠ none))) := by
  have hni : NumIndexes db = 0 ↔ db.registry = [] := by
    rw [NumIndexes, Indexes, List.length_map,
      Nat.mod_eq_of_lt hsmall, List.length_eq_zero]
  refine ⟨⟨?_, ?_⟩, ?_, ?_, ?_⟩
  · intro h
    by_cases hreg : db.registry = []
    · exact hreg
    · exfalso
      rw [dbAdd, if_neg (fun hc => hreg (hni.mp hc))] at h
      exact goAdd_error_ne_dbni h rfl
  · intro h
    simp [dbAdd, hni.mpr h]
  · intro h
    simp [dbAdd, hni.mpr h]
  · by_cases hreg : db.registry = []
    · simp [dbAdd, hni.mpr hreg]
    · have hnine : ¬ NumIndexes db = 0 := fun hc => hreg (hni.mp hc)
      by_cases hie : (Indexes db).isEmpty = true
      · rw [Indexes, List.isEmpty_iff, List.map_eq_nil_iff] at hie
        exact absurd hie hreg
      · simp [dbAdd, hnine, hie]
  · intro names hn hreg
    subst hn
    have hnine : ¬ NumIndexes db = 0 := fun hc => hreg (hni.mp hc)
    have heq : dbAdd db itemID itemVec ns =
        goAdd db.registry itemID itemVec (if ns.isEmpty then Indexes db else ns) db.kv := by
      rw [dbAdd, if_neg hnine]
    rw [heq]
    exact goAdd_spec db.registry itemID itemVec _ db.kv

/-- C9 witness: the concrete empty DB (small registry, empty name
list). -/
theorem db_add_fanout_witness :
    (⟨[], []⟩ : ModelDB).registry.length < U32 ∧
    (((dbAdd ⟨[], []⟩ "a" [] []).2 = some .dbHasNoIndex ↔
        (⟨[], []⟩ : ModelDB).registry = []) ∧
      ((⟨[], []⟩ : ModelDB).registry = [] →
        dbAdd ⟨[], []⟩ "a" [] [] = ((⟨[], []⟩ : ModelDB).kv, some .dbHasNoIndex)) ∧
      (dbAdd ⟨[], []⟩ "a" [] [] = dbAdd ⟨[], []⟩ "a" [] (Indexes ⟨[], []⟩)) ∧
      (∀ names, names = (if ([] : List String).isEmpty then Indexes ⟨[], []⟩ else []) →
        (⟨[], []⟩ : ModelDB).registry ≠ [] →
        ∃ j, j ≤ names.length ∧
          (∀ i, i < j →
            stepErr (⟨[], []⟩ : ModelDB).registry "a" [] (names.getD i "")
              (addAllKV (⟨[], []⟩ : ModelDB).registry "a" [] (names.take i)
                (⟨[], []⟩ : ModelDB).kv) = none) ∧
          (dbAdd ⟨[], []⟩ "a" [] []).1 =
            addAllKV (⟨[], []⟩ : ModelDB).registry "a" [] (names.take j)
              (⟨[], []⟩ : ModelDB).kv ∧
          ((j = names.length ∧ (dbAdd ⟨[], []⟩ "a" [] []).2 = none) ∨
            (j < names.length ∧
              (dbAdd ⟨[], []⟩ "a" [] []).2 =
                stepErr (⟨[], []⟩ : ModelDB).registry "a" [] (names.getD j "")
                  (addAllKV (⟨[], []⟩ : ModelDB).registry "a" [] (names.take j)
                    (⟨[], []⟩ : ModelDB).kv) ∧
              stepErr (⟨[], []⟩ : ModelDB).registry "a" [] (names.getD j "")
                (addAllKV (⟨[], []⟩ : ModelDB).registry "a" [] (names.take j)
                  (⟨[], []⟩ : ModelDB).kv) ≠ none)))) :=
  ⟨by norm_num [U32], db_add_fanout ⟨[], []⟩ "a" [] [] (by norm_num [U32])⟩

/-- C3: the re-ranker contract.  For a non-empty query and candidates of
the query's length, Search succeeds; with `k = 0` it returns exactly
the candidate ids whose cosine similarity (computed from the norms as
the code does) is ≥ threshold, in non-increasing similarity order
(`pairs` carries each returned id with its similarity); with `k > 0` it
returns the first `min(k, n)` of that list, so at most `k` ids. -/
theorem search_reranker_contract (q : List ℝ) (cs : List (String × List ℝ)) (t : ℝ) (k : Nat)
    (hq : q ≠ []) (hlen : ∀ p ∈ cs, (p.2 : List ℝ).length = q.length)
    (hsize : cs.length < U32) :
    ∃ (nq : ℝ) (pairs : List (String × ℝ)),
      euclideanNorm q = .ok nq ∧
      Search q cs t 0 = .ok (pairs.map Prod.fst) ∧
      (0 < k → Search q cs t k = .ok ((pairs.map Prod.fst).take k)) ∧
      (∀ id s, (id, s) ∈ pairs ↔ ∃ v nv, (id, v) ∈ cs ∧ euclideanNorm v = .ok nv ∧
        cosineSim q v nq nv = .ok s ∧ t ≤ s) ∧
      pairs.Pairwise (fun p p' => p'.2 ≤ p.2) ∧
      (∀ ids, 0 < k → Search q cs t k = .ok ids → ids.length ≤ k) := by
  obtain ⟨nq, hnq⟩ := euclideanNorm_ok q hq
  obtain ⟨raw, hraw⟩ := collectSims_ok q nq t cs hq hlen
  have hlelt : raw.length < U32 :=
    lt_of_le_of_lt (collectSims_length_le _ _ _ _ _ hraw) hsize
  have hmod : ((raw.mergeSort simLE).map Prod.fst).length % U32 = raw.length := by
    simp [Nat.mod_eq_of_lt hlelt]
  have hktake : 0 < k →
      Search q cs t k = .ok (((raw.mergeSort simLE).map Prod.fst).take k) := by
    intro hk
    simp only [Search, hnq, hraw, hmod]
    by_cases hcase : raw.length < k
    · rw [if_pos (Or.inr hcase)]
      rw [List.take_of_length_le (by simp; omega)]
    · rw [if_neg (by omega)]
  refine ⟨nq, raw.mergeSort simLE, hnq, ?_, hktake, ?_, mergeSort_simLE_sorted raw, ?_⟩
  · simp [Search, hnq, hraw]
  · intro id s
    rw [List.mem_mergeSort]
    exact mem_collectSims q nq t cs raw hraw id s
  · intro ids hk hids
    rw [hktake hk] at hids
    injection hids with hids'
    subst hids'
    exact List.length_take_le _ _

/-- C3 witness: a concrete query and candidate set. -/
theorem search_reranker_contract_witness :
    (([1, 0] : List ℝ) ≠ [] ∧
      (∀ p ∈ [("a", [1, 0])], (p.2 : List ℝ).length = ([1, 0] : List ℝ).length) ∧
      ([("a", ([1, 0] : List ℝ))] : List (String × List ℝ)).length < U32) ∧
    (∃ (nq : ℝ) (pairs : List (String × ℝ)),
      euclideanNorm [1, 0] = .ok nq ∧
      Search [1, 0] [("a", [1, 0])] 0 0 = .ok (pairs.map Prod.fst) ∧
      (0 < 1 → Search [1, 0] [("a", [1, 0])] 0 1 = .ok ((pairs.map Prod.fst).take 1)) ∧
      (∀ id s, (id, s) ∈ pairs ↔ ∃ v nv, (id, v) ∈ [("a", ([1, 0] : List ℝ))] ∧
        euclideanNorm v = .ok nv ∧ cosineSim [1, 0] v nq nv = .ok s ∧ 0 ≤ s) ∧
      pairs.Pairwise (fun p p' => p'.2 ≤ p.2) ∧
      (∀ ids, 0 < 1 → Search [1, 0] [("a", [1, 0])] 0 1 = .ok ids → ids.length ≤ 1)) :=
  ⟨⟨by simp, by simp, by norm_num [U32]⟩,
    search_reranker_contract [1, 0] [("a", [1, 0])] 0 1 (by simp) (by simp)
      (by norm_num [U32])⟩

/-- C4 (code_bug evidence): lsh.go setHyperParams clamps `num_rounds` and
`num_hyperplanes` below their minimum, but guards `space_dim` with
`MIN_NUM_HYPERPLANES = 1` instead of `MIN_SPACE_DIM = 2` (lsh.go line
495), so a fresh construction with `space_dim = 1` keeps `space_dim = 1`
even though the claim — and the `SpaceDim` field's own doc comment
("It must be at least 2. If invalid value is given, default value is
used.") — require clamping to 2.  `space_dim = 0` is still clamped, so
the slip is only visible at the value 1. -/
theorem setHyperParams_spaceDim_one_kept :
    setHyperParams 1 1 1 = (1, 1, 1) ∧
      (setHyperParams 1 1 1).2.2 ≠ MIN_SPACE_DIM ∧
      setHyperParams 0 0 0 = (MIN_NUM_ROUNDS, MIN_NUM_HYPERPLANES, MIN_SPACE_DIM) ∧
      (lshNew "x" [] 1 1 1 fun _ _ _ => (1 : ℝ)).map (fun p => p.1.spaceDim) = .ok 1 := by
  refine ⟨by decide, by decide, by decide, ?_⟩
  simp [lshNew, kvKeyExists, setHyperParams, MIN_NUM_ROUNDS, MIN_NUM_HYPERPLANES,
    MIN_SPACE_DIM, mkHashes, generateHyperplanes, Except.map]

/-- C10: on a DB whose registry is empty, Get with no index names
returns an empty result map and no error (Get never checks for an empty
registry), while Add in the same state fails with DBHasNoIndex. -/
theorem empty_db_get_add_asymmetry (db : ModelDB) (h : db.registry = [])
    (queryVec : List ℝ) (threshold : ℝ) (k : Nat)
    (itemID : String) (itemVec : List ℝ) (indexNames : List String) :
    dbGet db queryVec threshold k [] = .ok [] ∧
      dbAdd db itemID itemVec indexNames = (db.kv, some .dbHasNoIndex) := by
  constructor
  · simp [dbGet, Indexes, h, goGet]
  · simp [dbAdd, NumIndexes, Indexes, h, U32]

/-- C10 witness: the concrete empty DB. -/
theorem empty_db_get_add_asymmetry_witness :
    dbGet ⟨[], []⟩ [] 0 0 [] = .ok [] ∧
      dbAdd ⟨[], []⟩ "a" [] [] = (([] : KV), some .dbHasNoIndex) :=
  empty_db_get_add_asymmetry ⟨[], []⟩ rfl [] 0 0 "a" [] []

/-- Loading the stored hashes succeeds round by round when every round's
matrix is stored and decodes. -/
theorem getStoredHashes_ok (indexName : String) (kv : KV) (spaceDim : Nat)
    (flats : Nat → List ℝ) (mats : Nat → List (List ℝ)) :
    ∀ (n i : Nat),
      (∀ j, j < n →
        kvGet kv (getHyperPlanesKey indexName (i + j)) = .ok (.vreals (flats (i + j))) ∧
        decodeRealSlice2D (flats (i + j)) spaceDim = .ok (mats (i + j))) →
      getStoredHashes indexName kv spaceDim i n =
        .ok ((List.range n).map fun j => ⟨mats (i + j)⟩) := by
  intro n
  induction n with
  | zero => intro i _; simp [getStoredHashes]
  | succ n ih =>
    intro i h
    have h0 := h 0 (Nat.succ_pos n)
    have hrec := ih (i + 1) (fun j hj => by
      have := h (j + 1) (Nat.succ_lt_succ hj)
      simpa [Nat.add_assoc, Nat.add_comm 1 j] using this)
    simp only [getStoredHashes, Nat.add_zero] at h0 ⊢
    rw [h0.1]
    simp only [h0.2, hrec]
    have hshift : ∀ j : Nat, i + 1 + j = i + (j + 1) := fun j => by omega
    simp [List.range_succ_eq_map, List.map_map, Function.comp, hshift]

/-- C7: persistence wins.  When `index/{name}` exists and the stored
config entries decode (numbers under the three config keys, a matrix
under each round's hyperplanes key), lsh.New ignores its numeric
arguments entirely and returns the stored configuration, leaving the
store untouched. -/
theorem lshNew_persistence_wins (indexName : String) (kv : KV) (R H D : Nat)
    (flats : Nat → List ℝ) (mats : Nat → List (List ℝ))
    (hex : kvKeyExists kv (getIndexKey indexName) = true)
    (hr : kvGet kv (getNumRoundsKey indexName) = .ok (.vnat R))
    (hh : kvGet kv (getNumHyperPlanesKey indexName) = .ok (.vnat H))
    (hd : kvGet kv (getSpaceDimKey indexName) = .ok (.vnat D))
    (hm : ∀ i, i < R →
      kvGet kv (getHyperPlanesKey indexName i) = .ok (.vreals (flats i)) ∧
      decodeRealSlice2D (flats i) D = .ok (mats i)) :
    ∀ numRounds numHyperPlanes spaceDim supply,
      lshNew indexName kv numRounds numHyperPlanes spaceDim supply =
        .ok (⟨indexName, (List.range R).map fun i => ⟨mats i⟩, R, H, D⟩, kv) := by
  intro r h d supply
  have hsh := getStoredHashes_ok indexName kv D flats mats R 0 (by simpa using hm)
  simp only [Nat.zero_add] at hsh
  simp [lshNew, hex, getStoredConfig, hr, hh, hd, decodeU32Val, hsh]

/-- C7 witness: loading the concrete stored config ignores the
arguments (7, 8, 9). -/
theorem lshNew_persistence_wins_witness :
    (kvKeyExists storedKV (getIndexKey "n") = true ∧
      kvGet storedKV (getNumRoundsKey "n") = .ok (.vnat 1) ∧
      kvGet storedKV (getNumHyperPlanesKey "n") = .ok (.vnat 1) ∧
      kvGet storedKV (getSpaceDimKey "n") = .ok (.vnat 2) ∧
      decodeRealSlice2D [1, 2] 2 = .ok [[1, 2]]) ∧
    lshNew "n" storedKV 7 8 9 (fun _ _ _ => 0) =
      .ok (⟨"n", [⟨[[1, 2]]⟩], 1, 1, 2⟩, storedKV) := by
  have hex : kvKeyExists storedKV (getIndexKey "n") = true := by
    simp [storedKV, kvKeyExists]
  have hr : kvGet storedKV (getNumRoundsKey "n") = .ok (.vnat 1) := by
    simp [storedKV, kvGet, getIndexKey, getNumRoundsKey, getNumHyperPlanesKey,
      getSpaceDimKey, getHyperPlanesKey]
  have hh : kvGet storedKV (getNumHyperPlanesKey "n") = .ok (.vnat 1) := by
    simp [storedKV, kvGet, getIndexKey, getNumRoundsKey, getNumHyperPlanesKey,
      getSpaceDimKey, getHyperPlanesKey]
  have hd : kvGet storedKV (getSpaceDimKey "n") = .ok (.vnat 2) := by
    simp [storedKV, kvGet, getIndexKey, getNumRoundsKey, getNumHyperPlanesKey,
      getSpaceDimKey, getHyperPlanesKey]
  have hmat : kvGet storedKV (getHyperPlanesKey "n" 0) = .ok (.vreals [1, 2]) := by
    have h0 : toString (0 : Nat) = "0" := rfl
    simp [storedKV, kvGet, getIndexKey, getNumRoundsKey, getNumHyperPlanesKey,
      getSpaceDimKey, getHyperPlanesKey, h0]
  have hdec : decodeRealSlice2D ([1, 2] : List ℝ) 2 = .ok [[1, 2]] := by
    rw [decodeRealSlice2D]
    norm_num
    rw [decodeRealSlice2D]
  have hmain := lshNew_persistence_wins "n" storedKV 1 1 2
    (fun _ => [1, 2]) (fun _ => [[1, 2]]) hex hr hh hd
    (fun i hi => by
      have : i = 0 := Nat.lt_one_iff.mp hi
      subst this
      exact ⟨hmat, hdec⟩) 7 8 9 (fun _ _ _ => 0)
  refine ⟨⟨hex, hr, hh, hd, hdec⟩, ?_⟩
  simpa using hmain

/-- C6 (amended): after a successful `Add(id, vec)`, the store holds the
embedding entry `index/{X}/embedding/{id} → vec` and, for every round
sketch `s` of `vec`, a bucket-membership entry
`index/{X}/sketch/{s}/{id} → id`.  The key does not mention the round
index, so rounds whose sketches coincide share a single entry. -/
theorem add_bucket_membership (l : LSH) (kv kv' : KV) (id : String) (emb : List ℝ)
    (sks : List String) (hadd : lshAdd l kv id emb = .ok kv')
    (hsks : getSketches l emb = .ok sks) :
    kvGet kv' (getEmbeddingKey l.indexName id) = .ok (.vreals emb) ∧
      ∀ sk ∈ sks, kvGet kv' (getSketchKey l.indexName sk id) = .ok (.vstr id) := by
  simp only [lshAdd] at hadd
  cases hpe : prepareEmbedding l id emb with
  | error e => simp [hpe] at hadd
  | ok embedData =>
    simp only [hpe, hsks] at hadd
    cases hps : prepareSketches l id sks with
    | error e => simp [hps] at hadd
    | ok sksData =>
      simp only [hps, Except.ok.injEq] at hadd
      have hed : embedData = [(getEmbeddingKey l.indexName id, .vreals emb)] := by
        simp only [prepareEmbedding] at hpe
        cases hce : checkEmbedding l emb with
        | error e => simp [hce] at hpe
        | ok u =>
          simp only [hce, Except.ok.injEq] at hpe
          exact hpe.symm
      have hsd : sksData = sks.map fun sk => (getSketchKey l.indexName sk id, Val.vstr id) := by
        simp only [prepareSketches] at hps
        by_cases hid : id.length = 0
        · simp [hid] at hps
        · simp only [hid, if_false] at hps
          cases hcs : checkSketches l sks with
          | error e => simp [hcs] at hps
          | ok u =>
            simp only [hcs, Except.ok.injEq] at hps
            exact hps.symm
      subst hed
      subst hsd
      subst hadd
      constructor
      · rw [kvGet_addBatch]
        have h1 : ((sks.map fun sk =>
            (getSketchKey l.indexName sk id, Val.vstr id)).reverse).find?
              (fun p => p.1 == getEmbeddingKey l.indexName id) = none := by
          rw [List.find?_eq_none]
          intro p hp
          rw [List.mem_reverse, List.mem_map] at hp
          obtain ⟨sk, _, rfl⟩ := hp
          simp only [beq_iff_eq]
          exact fun hc => embKey_ne_sketchKey l.indexName sk id id hc.symm
        rw [List.reverse_append, List.find?_append, h1]
        simp [List.find?]
      · intro sk hsk
        rw [kvGet_addBatch]
        cases hfind : (([(getEmbeddingKey l.indexName id, Val.vreals emb)] ++
            sks.map fun sk => (getSketchKey l.indexName sk id, Val.vstr id)).reverse).find?
              (fun p => p.1 == getSketchKey l.indexName sk id) with
        | none =>
          exfalso
          rw [List.find?_eq_none] at hfind
          refine hfind (getSketchKey l.indexName sk id, Val.vstr id) ?_ (by simp)
          rw [List.mem_reverse]
          exact List.mem_append_right _ (List.mem_map_of_mem _ hsk)
        | some p =>
          have hp := List.mem_of_find?_eq_some hfind
          have hpt := List.find?_some hfind
          rw [List.mem_reverse, List.mem_append] at hp
          rcases hp with hp | hp
          · rw [List.mem_singleton] at hp
            subst hp
            simp only [beq_iff_eq] at hpt
            exact absurd hpt (embKey_ne_sketchKey l.indexName sk id id)
          · rw [List.mem_map] at hp
            obtain ⟨sk', _, rfl⟩ := hp
            rfl

/-- C6 witness: a 1-round index on an empty store; after Add the sketch
entry and embedding entry are present. -/
theorem add_bucket_membership_witness :
    (lshAdd ⟨"i", [⟨[[1, 0]]⟩], 1, 1, 2⟩ [] "a" [1, 0] =
        .ok [(getEmbeddingKey "i" "a", .vreals [1, 0]),
             (getSketchKey "i" "1" "a", .vstr "a")] ∧
      getSketches ⟨"i", [⟨[[1, 0]]⟩], 1, 1, 2⟩ [1, 0] = .ok ["1"]) ∧
    (kvGet [(getEmbeddingKey "i" "a", .vreals [1, 0]),
            (getSketchKey "i" "1" "a", .vstr "a")] (getEmbeddingKey "i" "a") =
        .ok (.vreals [1, 0]) ∧
      ∀ sk ∈ ["1"], kvGet [(getEmbeddingKey "i" "a", .vreals [1, 0]),
            (getSketchKey "i" "1" "a", .vstr "a")] (getSketchKey "i" sk "a") =
        .ok (.vstr "a")) := by
  have hsks : getSketches ⟨"i", [⟨[[1, 0]]⟩], 1, 1, 2⟩ ([1, 0] : List ℝ) = .ok ["1"] := by
    simp [getSketches, getSketchesAux, Sketch, sketchChars, hash, dotProduct, String.join]
  have hadd : lshAdd ⟨"i", [⟨[[1, 0]]⟩], 1, 1, 2⟩ [] "a" [1, 0] =
      .ok [(getEmbeddingKey "i" "a", .vreals [1, 0]),
           (getSketchKey "i" "1" "a", .vstr "a")] := by
    have hne : ¬ (getEmbeddingKey "i" "a" == getSketchKey "i" "1" "a") = true := by
      simp only [beq_iff_eq]
      exact embKey_ne_sketchKey "i" "1" "a" "a"
    have ha : ("a" : String).length = 1 := rfl
    have h1 : ("1" : String).length = 1 := rfl
    simp [lshAdd, prepareEmbedding, checkEmbedding, U32, hsks, prepareSketches,
      checkSketches, checkSketchLens, kvAddBatch, kvUpsert, hne, ha, h1]
  exact ⟨⟨hadd, hsks⟩,
    add_bucket_membership ⟨"i", [⟨[[1, 0]]⟩], 1, 1, 2⟩ []
      [(getEmbeddingKey "i" "a", .vreals [1, 0]), (getSketchKey "i" "1" "a", .vstr "a")]
      "a" [1, 0] ["1"] hadd hsks⟩

/-- C6 counterexample: on a 2-round index whose rounds produce the same
sketch "1" for the added vector, a successful Add writes exactly ONE
bucket-membership entry, not one distinct entry per round, and its key
`index/i/sketch/1/a` contains no round index — the claim's "one
distinct entry per round, the key including the round index r" fails. -/
theorem add_bucket_membership_counterexample :
    dupLSH.numRounds = 2 ∧
      lshAdd dupLSH [] "a" [1, 0] =
        .ok [(getEmbeddingKey "i" "a", .vreals [1, 0]),
             (getSketchKey "i" "1" "a", .vstr "a")] ∧
      getSketchKey "i" "1" "a" = "index/i/sketch/1/a" := by
  refine ⟨rfl, ?_, by simp [getSketchKey, getSketchPrefKey, getIndexKey]⟩
  have hsks : getSketches ⟨"i", [⟨[[1, 0]]⟩, ⟨[[1, 0]]⟩], 2, 1, 2⟩ ([1, 0] : List ℝ) =
      .ok ["1", "1"] := by
    simp [getSketches, getSketchesAux, Sketch, sketchChars, hash, dotProduct,
      String.join]
  have hne : ¬ (getEmbeddingKey "i" "a" == getSketchKey "i" "1" "a") = true := by
    simp only [beq_iff_eq]
    exact embKey_ne_sketchKey "i" "1" "a" "a"
  have ha : ("a" : String).length = 1 := rfl
  have h1 : ("1" : String).length = 1 := rfl
  simp [dupLSH, lshAdd, prepareEmbedding, checkEmbedding, U32, hsks, prepareSketches,
    checkSketches, checkSketchLens, kvAddBatch, kvUpsert, hne, ha, h1]

/-- C8 counterexample: the matrix `[[]]` (one empty row, so every row
has length `num_cols = 0`) encodes to zero bytes, which decode back to
the empty matrix `[]`, not to `[[]]` — the 2D round-trip fails for
`num_cols = 0`. -/
theorem decode2D_numCols_zero_counterexample :
    encodeFloat64Slice2D [[]] = [] ∧
      decodeFloat64Slice2D (encodeFloat64Slice2D [[]]) 0 = .ok [] ∧
      (.ok [] : Except Err (List (List Nat))) ≠ .ok [[]] := by
  refine ⟨rfl, ?_, by simp⟩
  simp [encodeFloat64Slice2D, encodeFloat64Slice, decodeFloat64Slice2D]

/-- C8 (amended): the byte-level round-trips hold bitwise — for any
slice of 64-bit patterns, decode ∘ encode is the identity; and for any
matrix whose rows all have length `num_cols`, provided `num_cols ≥ 1`,
the 2D decode of its row-major encoding restores the matrix. -/
theorem encode_decode_roundtrip (s : List Nat) (hs : ∀ x ∈ s, x < 2 ^ 64)
    (m : List (List Nat)) (numCols : Nat) (hrows : ∀ row ∈ m, row.length = numCols)
    (hm : ∀ row ∈ m, ∀ x ∈ row, x < 2 ^ 64) (hpos : 0 < numCols) :
    decodeFloat64Slice (encodeFloat64Slice s) = .ok s ∧
      decodeFloat64Slice2D (encodeFloat64Slice2D m) numCols = .ok m := by
  refine ⟨decode_encode_slice s hs, ?_⟩
  induction m with
  | nil => simp [encodeFloat64Slice2D, decodeFloat64Slice2D]
  | cons row rest ih =>
    have hrow : row.length = numCols := hrows row (List.mem_cons_self _ _)
    have hrowv : ∀ x ∈ row, x < 2 ^ 64 := hm row (List.mem_cons_self _ _)
    have henc : encodeFloat64Slice2D (row :: rest) =
        encodeFloat64Slice row ++ encodeFloat64Slice2D rest := by
      simp [encodeFloat64Slice2D]
    rw [henc,
      decodeFloat64Slice2D_append _ _ _ (by rw [length_encodeFloat64Slice, hrow]) hpos,
      ih (fun r hr => hrows r (List.mem_cons_of_mem _ hr))
        (fun r hr => hm r (List.mem_cons_of_mem _ hr)),
      decode_encode_slice row hrowv]

/-- C8 witness: a concrete slice (including the all-ones pattern) and a
concrete 2 × 1 matrix round-trip. -/
theorem encode_decode_roundtrip_witness :
    (∀ x ∈ [3, 2 ^ 64 - 1], x < 2 ^ 64) ∧
      (∀ row ∈ [[5], [7]], row.length = 1) ∧
      (∀ row ∈ [[5], [7]], ∀ x ∈ row, x < 2 ^ 64) ∧ 0 < 1 ∧
      (decodeFloat64Slice (encodeFloat64Slice [3, 2 ^ 64 - 1]) = .ok [3, 2 ^ 64 - 1] ∧
        decodeFloat64Slice2D (encodeFloat64Slice2D [[5], [7]]) 1 = .ok [[5], [7]]) :=
  ⟨by decide, by decide, by decide, by decide,
    encode_decode_roundtrip [3, 2 ^ 64 - 1] (by decide) [[5], [7]] 1
      (by decide) (by decide) (by decide)⟩

end Vectoria
